import Mathlib

/-!
Verification development for the Spectrice spectral-freezing core.

This file is a shallow embedding, over the real numbers, of the code in
`src/fourier/Fourier_CenterFFT.c`, `src/libspectrice/Spectrice_State.c` and
`src/libspectrice/Spectrice_Process.c`.  C `float` arithmetic is modelled by
exact real arithmetic (the spec states its numeric properties "up to
floating-point tolerance"; over the reals they are exact).  C buffers are
modelled as total functions `ℕ → ℝ`; an index that has no counterpart in the
C buffer carries a junk value that no theorem depends on.  Loops over buffer
indices are translated to their closed index form, with comments mapping the
pointer arithmetic of the source to the index formulas used here.
-/

open Real Finset

noncomputable section

namespace Spectrice

/-! ## Trigonometric summation helpers

The telescoping evaluation of arithmetic cosine sums; this single lemma
underlies both the DCT-IV orthogonality relation (hence the FFT round trip)
and the constant-overlap-add property of the analysis windows. -/

/-- Telescoping form of an arithmetic cosine sum:
multiplying by `2 sin (β/2)` turns every term into a difference of sines. -/
theorem two_sin_mul_sum_cos (α β : ℝ) (M : ℕ) :
    2 * Real.sin (β / 2) * ∑ h ∈ Finset.range M, Real.cos (α + h * β)
      = Real.sin (α + M * β - β / 2) - Real.sin (α - β / 2) := by
  have key : ∀ h : ℕ,
      Real.sin (α + (h + 1 : ℕ) * β - β / 2) - Real.sin (α + (h : ℕ) * β - β / 2)
        = 2 * Real.sin (β / 2) * Real.cos (α + h * β) := by
    intro h
    have h1 : ((α + (h + 1 : ℕ) * β - β / 2) - (α + (h : ℕ) * β - β / 2)) / 2 = β / 2 := by
      push_cast; ring
    have h2 : ((α + (h + 1 : ℕ) * β - β / 2) + (α + (h : ℕ) * β - β / 2)) / 2
        = α + (h : ℕ) * β := by
      push_cast; ring
    rw [Real.sin_sub_sin, h1, h2]
  rw [Finset.mul_sum]
  have htel := Finset.sum_range_sub (fun h : ℕ => Real.sin (α + (h : ℕ) * β - β / 2)) M
  calc ∑ h ∈ Finset.range M, 2 * Real.sin (β / 2) * Real.cos (α + h * β)
      = ∑ h ∈ Finset.range M,
          (Real.sin (α + (h + 1 : ℕ) * β - β / 2) - Real.sin (α + (h : ℕ) * β - β / 2)) :=
        (Finset.sum_congr rfl fun h _ => (key h).symm)
    _ = Real.sin (α + M * β - β / 2) - Real.sin (α - β / 2) := by
        rw [htel]; norm_num

/-- An arithmetic cosine sum vanishes whenever the telescoped endpoints agree
and the half-step sine is nonzero. -/
theorem sum_cos_arith_eq_zero (α β : ℝ) (M : ℕ) (h1 : Real.sin (β / 2) ≠ 0)
    (h2 : Real.sin (α + M * β - β / 2) = Real.sin (α - β / 2)) :
    ∑ h ∈ Finset.range M, Real.cos (α + h * β) = 0 := by
  have h3 := two_sin_mul_sum_cos α β M
  rw [h2, sub_self] at h3
  rcases mul_eq_zero.mp h3 with h4 | h4
  · rcases mul_eq_zero.mp h4 with h5 | h5
    · norm_num at h5
    · exact absurd h5 h1
  · exact h4

/-- Half-integer cosine sum: the sum of `cos((n+1/2)θ)` over `n < M` vanishes
when `sin(Mθ) = 0` while `sin(θ/2) ≠ 0`. -/
theorem sum_cos_half_eq_zero (θ : ℝ) (M : ℕ) (h1 : Real.sin (θ / 2) ≠ 0)
    (h2 : Real.sin (M * θ) = 0) :
    ∑ n ∈ Finset.range M, Real.cos (((n : ℝ) + 1 / 2) * θ) = 0 := by
  have h3 : ∑ n ∈ Finset.range M, Real.cos (((n : ℝ) + 1 / 2) * θ)
      = ∑ n ∈ Finset.range M, Real.cos (θ / 2 + n * θ) :=
    Finset.sum_congr rfl fun n _ => by ring_nf
  rw [h3]
  apply sum_cos_arith_eq_zero _ _ _ h1
  have h4 : θ / 2 + M * θ - θ / 2 = M * θ := by ring
  have h5 : θ / 2 - θ / 2 = 0 := by ring
  rw [h4, h5, Real.sin_zero, h2]

/-! ## The DCT-IV kernel

The implementation of `Fourier_DCT4` is not part of the sources under
verification; only its declaration and documented matrix form are
(`src/include/Fourier.h`). -/

/-- Modelled from the spec: the implementation of `Fourier_DCT4` is missing
from the sources (only its declaration is present).  `src/include/Fourier.h`
documents the implemented transform as the matrix
`mtxDCTIV = Table[Cos[(n-1/2)(k-1/2)Pi/N], {k,N}, {n,N}]` (1-based), i.e. the
unnormalized DCT-IV.  `Buf[N]` is transformed in place; `Tmp[N]` is scratch
with no observable effect, so it is not modelled. -/
def Fourier_DCT4 (M : ℕ) (x : ℕ → ℝ) : ℕ → ℝ := fun k =>
  ∑ n ∈ Finset.range M, Real.cos (((n : ℝ) + 1 / 2) * ((k : ℝ) + 1 / 2) * π / M) * x n

/-- The DCT-IV only reads its input below index `M`. -/
theorem Fourier_DCT4_congr (M : ℕ) (x y : ℕ → ℝ) (h : ∀ n < M, x n = y n) (k : ℕ) :
    Fourier_DCT4 M x k = Fourier_DCT4 M y k := by
  unfold Fourier_DCT4
  exact Finset.sum_congr rfl fun n hn => by rw [h n (Finset.mem_range.mp hn)]

/-- The DCT-IV of the zero vector is zero. -/
theorem Fourier_DCT4_zero (M : ℕ) (x : ℕ → ℝ) (h : ∀ n < M, x n = 0) (k : ℕ) :
    Fourier_DCT4 M x k = 0 := by
  unfold Fourier_DCT4
  apply Finset.sum_eq_zero
  intro n hn
  rw [h n (Finset.mem_range.mp hn), mul_zero]

/-- Orthogonality of the DCT-IV kernel rows. -/
theorem dct4_kernel_orth (M : ℕ) (hM : 0 < M) (k m : ℕ) (hk : k < M) (hm : m < M) :
    ∑ n ∈ Finset.range M,
        Real.cos (((n : ℝ) + 1 / 2) * ((k : ℝ) + 1 / 2) * π / M) *
          Real.cos (((n : ℝ) + 1 / 2) * ((m : ℝ) + 1 / 2) * π / M)
      = if k = m then (M : ℝ) / 2 else 0 := by
  have hMR : (0 : ℝ) < (M : ℝ) := by exact_mod_cast hM
  have hM0 : (M : ℝ) ≠ 0 := ne_of_gt hMR
  have hπ : (0 : ℝ) < π := Real.pi_pos
  have hkMR : (k : ℝ) < M := by exact_mod_cast hk
  have hmMR : (m : ℝ) < M := by exact_mod_cast hm
  have hk0 : (0 : ℝ) ≤ k := Nat.cast_nonneg k
  have hm0 : (0 : ℝ) ≤ m := Nat.cast_nonneg m
  have hk1 : (k : ℝ) + 1 ≤ M := by exact_mod_cast hk
  have hm1 : (m : ℝ) + 1 ≤ M := by exact_mod_cast hm
  -- product-to-sum on every term
  have pts : ∀ n : ℕ,
      Real.cos (((n : ℝ) + 1 / 2) * ((k : ℝ) + 1 / 2) * π / M) *
          Real.cos (((n : ℝ) + 1 / 2) * ((m : ℝ) + 1 / 2) * π / M)
        = (Real.cos (((n : ℝ) + 1 / 2) * (((k : ℝ) - m) * π / M))
            + Real.cos (((n : ℝ) + 1 / 2) * (((k : ℝ) + m + 1) * π / M))) / 2 := by
    intro n
    have hsub : ((n : ℝ) + 1 / 2) * (((k : ℝ) - m) * π / M)
        = ((n : ℝ) + 1 / 2) * ((k : ℝ) + 1 / 2) * π / M
          - ((n : ℝ) + 1 / 2) * ((m : ℝ) + 1 / 2) * π / M := by ring
    have hadd : ((n : ℝ) + 1 / 2) * (((k : ℝ) + m + 1) * π / M)
        = ((n : ℝ) + 1 / 2) * ((k : ℝ) + 1 / 2) * π / M
          + ((n : ℝ) + 1 / 2) * ((m : ℝ) + 1 / 2) * π / M := by ring
    rw [hsub, hadd, Real.cos_sub, Real.cos_add]
    ring
  -- the (k+m+1) sum always vanishes
  have hsum2 : ∑ n ∈ Finset.range M,
      Real.cos (((n : ℝ) + 1 / 2) * (((k : ℝ) + m + 1) * π / M)) = 0 := by
    apply sum_cos_half_eq_zero
    · have hpos : 0 < ((k : ℝ) + m + 1) * π / M / 2 := by
        rw [div_div]
        exact div_pos (mul_pos (by linarith) hπ) (by linarith)
      have hlt : ((k : ℝ) + m + 1) * π / M / 2 < π := by
        rw [div_div, div_lt_iff₀ (by linarith : (0 : ℝ) < (M : ℝ) * 2)]
        have hbR : ((k : ℝ) + m + 1) < (M : ℝ) * 2 := by linarith
        calc ((k : ℝ) + m + 1) * π < ((M : ℝ) * 2) * π := mul_lt_mul_of_pos_right hbR hπ
          _ = π * ((M : ℝ) * 2) := by ring
      exact ne_of_gt (Real.sin_pos_of_pos_of_lt_pi hpos hlt)
    · have hcast : (M : ℝ) * (((k : ℝ) + m + 1) * π / M) = ((k + m + 1 : ℕ) : ℝ) * π := by
        push_cast
        field_simp
      rw [hcast, Real.sin_nat_mul_pi]
  rw [Finset.sum_congr rfl fun n _ => pts n, ← Finset.sum_div, Finset.sum_add_distrib, hsum2,
    add_zero]
  by_cases hkm : k = m
  · subst hkm
    have hsum1 : ∑ n ∈ Finset.range M,
        Real.cos (((n : ℝ) + 1 / 2) * (((k : ℝ) - k) * π / M)) = M := by
      have hone : ∀ n ∈ Finset.range M,
          Real.cos (((n : ℝ) + 1 / 2) * (((k : ℝ) - k) * π / M)) = 1 := by
        intro n _
        have hz : ((n : ℝ) + 1 / 2) * (((k : ℝ) - k) * π / M) = 0 := by ring
        rw [hz, Real.cos_zero]
      rw [Finset.sum_congr rfl hone, Finset.sum_const, Finset.card_range]
      simp
    rw [hsum1, if_pos rfl]
  · rw [if_neg hkm]
    have hsum1 : ∑ n ∈ Finset.range M,
        Real.cos (((n : ℝ) + 1 / 2) * (((k : ℝ) - m) * π / M)) = 0 := by
      apply sum_cos_half_eq_zero
      · have habs : ((k : ℝ) - m) ≠ 0 := by
          intro h
          exact hkm (by exact_mod_cast sub_eq_zero.mp h)
        rcases lt_or_gt_of_ne habs with hneg | hpos
        · have h1 : 0 < ((m : ℝ) - k) * π / M / 2 := by
            rw [div_div]
            exact div_pos (mul_pos (by linarith) hπ) (by linarith)
          have h2 : ((m : ℝ) - k) * π / M / 2 < π := by
            rw [div_div, div_lt_iff₀ (by linarith : (0 : ℝ) < (M : ℝ) * 2)]
            have hbR : ((m : ℝ) - k) < (M : ℝ) * 2 := by linarith
            calc ((m : ℝ) - k) * π < ((M : ℝ) * 2) * π := mul_lt_mul_of_pos_right hbR hπ
              _ = π * ((M : ℝ) * 2) := by ring
          have hflip : Real.sin (((k : ℝ) - m) * π / M / 2)
              = -Real.sin (((m : ℝ) - k) * π / M / 2) := by
            rw [← Real.sin_neg]
            congr 1
            ring
          rw [hflip]
          exact neg_ne_zero.mpr (ne_of_gt (Real.sin_pos_of_pos_of_lt_pi h1 h2))
        · have h1 : 0 < ((k : ℝ) - m) * π / M / 2 := by
            rw [div_div]
            exact div_pos (mul_pos (by linarith) hπ) (by linarith)
          have h2 : ((k : ℝ) - m) * π / M / 2 < π := by
            rw [div_div, div_lt_iff₀ (by linarith : (0 : ℝ) < (M : ℝ) * 2)]
            have hbR : ((k : ℝ) - m) < (M : ℝ) * 2 := by linarith
            calc ((k : ℝ) - m) * π < ((M : ℝ) * 2) * π := mul_lt_mul_of_pos_right hbR hπ
              _ = π * ((M : ℝ) * 2) := by ring
          exact ne_of_gt (Real.sin_pos_of_pos_of_lt_pi h1 h2)
      · have hcast : (M : ℝ) * (((k : ℝ) - m) * π / M) = (((k : ℤ) - m : ℤ) : ℝ) * π := by
          push_cast
          field_simp
        rw [hcast, Real.sin_int_mul_pi]
    rw [hsum1]
    norm_num

/-- Applying the (unnormalized) DCT-IV twice scales by `M/2`. -/
theorem Fourier_DCT4_involution (M : ℕ) (hM : 0 < M) (x : ℕ → ℝ) (k : ℕ) (hk : k < M) :
    Fourier_DCT4 M (Fourier_DCT4 M x) k = (M : ℝ) / 2 * x k := by
  unfold Fourier_DCT4
  have step1 : ∀ n ∈ Finset.range M,
      Real.cos (((n : ℝ) + 1 / 2) * ((k : ℝ) + 1 / 2) * π / M) *
          (∑ m ∈ Finset.range M,
            Real.cos (((m : ℝ) + 1 / 2) * ((n : ℝ) + 1 / 2) * π / M) * x m)
        = ∑ m ∈ Finset.range M,
            (Real.cos (((n : ℝ) + 1 / 2) * ((k : ℝ) + 1 / 2) * π / M) *
              Real.cos (((n : ℝ) + 1 / 2) * ((m : ℝ) + 1 / 2) * π / M)) * x m := by
    intro n _
    rw [Finset.mul_sum]
    apply Finset.sum_congr rfl
    intro m _
    have hswap : ((m : ℝ) + 1 / 2) * ((n : ℝ) + 1 / 2) * π / M
        = ((n : ℝ) + 1 / 2) * ((m : ℝ) + 1 / 2) * π / M := by ring
    rw [hswap]
    ring
  rw [Finset.sum_congr rfl step1, Finset.sum_comm]
  have step2 : ∀ m ∈ Finset.range M,
      ∑ n ∈ Finset.range M,
          (Real.cos (((n : ℝ) + 1 / 2) * ((k : ℝ) + 1 / 2) * π / M) *
            Real.cos (((n : ℝ) + 1 / 2) * ((m : ℝ) + 1 / 2) * π / M)) * x m
        = (if k = m then (M : ℝ) / 2 * x m else 0) := by
    intro m hm
    rw [← Finset.sum_mul, dct4_kernel_orth M hM k m hk (Finset.mem_range.mp hm)]
    split
    · ring
    · ring
  rw [Finset.sum_congr rfl step2,
    Finset.sum_ite_eq (Finset.range M) k fun m => (M : ℝ) / 2 * x m,
    if_pos (Finset.mem_range.mpr hk)]

/-! ## The centered FFT pair

Embedding of the scalar (`FOURIER_VSTRIDE == 1`) paths of
`Fourier_FFTReCenter` and `Fourier_iFFTReCenter`
(`src/fourier/Fourier_CenterFFT.c`).  The buffer length is `N = 2*M`.

Forward transform, first loop (pointers `SrcA = SrcB = Buf+N/2`, two entries
per iteration with a sign flip on the odd one): for `j < M` it computes
`Tmp[j] = Buf[M+j] + Buf[M-1-j]` and `Tmp[M+j] = (-1)^j * (Buf[M+j] - Buf[M-1-j])`.
Both halves of `Tmp` then go through `Fourier_DCT4` of size `M`.  The final
loop (`SrcA = Tmp`, `SrcB = Tmp+N` walking backwards, `Dst = Buf`) interleaves
`Buf[2k] = Tmp[k]` and `Buf[2k+1] = Tmp[2M-1-k] = (DCT4 half2)[M-1-k]`. -/
def Fourier_FFTReCenter (M : ℕ) (x : ℕ → ℝ) : ℕ → ℝ := fun i =>
  if i < 2 * M then
    if i % 2 = 0 then
      Fourier_DCT4 M (fun j => x (M + j) + x (M - 1 - j)) (i / 2)
    else
      Fourier_DCT4 M (fun j => (-1 : ℝ) ^ j * (x (M + j) - x (M - 1 - j))) (M - 1 - i / 2)
  else 0

/-- Embedding of the scalar path of `Fourier_iFFTReCenter`.  The first loop
deinterleaves: `Tmp[j] = Buf[2j]` and (walking `DstB` backwards)
`Tmp[M+j] = Buf[2(M-1-j)+1]`.  Both halves go through `Fourier_DCT4` of size
`M`.  The final loop (`DstA = DstB = Buf+N/2`, two entries per iteration with
the DST sign flip on the odd one) recombines, for `j < M`:
`Buf[M+j] = Tmp[j] + (-1)^j*Tmp[M+j]` and `Buf[M-1-j] = Tmp[j] - (-1)^j*Tmp[M+j]`. -/
def Fourier_iFFTReCenter (M : ℕ) (x : ℕ → ℝ) : ℕ → ℝ := fun i =>
  if i < 2 * M then
    if M ≤ i then
      Fourier_DCT4 M (fun j => x (2 * j)) (i - M)
        + (-1 : ℝ) ^ (i - M) * Fourier_DCT4 M (fun j => x (2 * (M - 1 - j) + 1)) (i - M)
    else
      Fourier_DCT4 M (fun j => x (2 * j)) (M - 1 - i)
        - (-1 : ℝ) ^ (M - 1 - i) * Fourier_DCT4 M (fun j => x (2 * (M - 1 - j) + 1)) (M - 1 - i)
  else 0

/-- The size contract of the centered FFT/iFFT kernels, as stated in
`src/include/Fourier.h` ("N must be a power of two, and >= 16") and assumed
by `FOURIER_ASSUME(N >= 16)` in `src/fourier/Fourier_CenterFFT.c`
(the power-of-two test is bounded to stay decidable). -/
def Fourier_size_ok (N : ℕ) : Bool := decide (16 ≤ N ∧ ∃ k ≤ N, N = 2 ^ k)

/-- The forward centered FFT only reads its input below index `2M`. -/
theorem Fourier_FFTReCenter_congr (M : ℕ) (x y : ℕ → ℝ) (h : ∀ n < 2 * M, x n = y n)
    (i : ℕ) : Fourier_FFTReCenter M x i = Fourier_FFTReCenter M y i := by
  unfold Fourier_FFTReCenter
  split
  · split
    · apply Fourier_DCT4_congr
      intro j hj
      rw [h (M + j) (by omega), h (M - 1 - j) (by omega)]
    · apply Fourier_DCT4_congr
      intro j hj
      rw [h (M + j) (by omega), h (M - 1 - j) (by omega)]
  · rfl

/-- The forward centered FFT of the zero vector is zero. -/
theorem Fourier_FFTReCenter_zero (M : ℕ) (x : ℕ → ℝ) (h : ∀ n < 2 * M, x n = 0) (i : ℕ) :
    Fourier_FFTReCenter M x i = 0 := by
  unfold Fourier_FFTReCenter
  split
  · split
    · apply Fourier_DCT4_zero
      intro j hj
      rw [h (M + j) (by omega), h (M - 1 - j) (by omega)]
      ring
    · apply Fourier_DCT4_zero
      intro j hj
      rw [h (M + j) (by omega), h (M - 1 - j) (by omega)]
      ring
  · rfl

/-- Round trip of the centered FFT pair: the inverse applied to the forward
transform returns `M = N/2` times the input — the documented "scaled"
behavior; the residual factor is absorbed by the window normalization. -/
theorem fft_roundtrip (M : ℕ) (hM : 0 < M) (x : ℕ → ℝ) (i : ℕ) (hi : i < 2 * M) :
    Fourier_iFFTReCenter M (Fourier_FFTReCenter M x) i = (M : ℝ) * x i := by
  -- the deinterleaved even half recovers the first DCT4 output
  have heven : ∀ j < M,
      Fourier_FFTReCenter M x (2 * j)
        = Fourier_DCT4 M (fun j' => x (M + j') + x (M - 1 - j')) j := by
    intro j hj
    unfold Fourier_FFTReCenter
    rw [if_pos (by omega), if_pos (by omega)]
    congr 1
    omega
  -- the deinterleaved odd half recovers the second DCT4 output
  have hodd : ∀ j < M,
      Fourier_FFTReCenter M x (2 * (M - 1 - j) + 1)
        = Fourier_DCT4 M (fun j' => (-1 : ℝ) ^ j' * (x (M + j') - x (M - 1 - j'))) j := by
    intro j hj
    unfold Fourier_FFTReCenter
    rw [if_pos (by omega), if_neg (by omega)]
    congr 1
    omega
  have hA : ∀ c < M,
      Fourier_DCT4 M (fun j => Fourier_FFTReCenter M x (2 * j)) c
        = (M : ℝ) / 2 * (x (M + c) + x (M - 1 - c)) := by
    intro c hc
    rw [Fourier_DCT4_congr M _ _ heven c]
    exact Fourier_DCT4_involution M hM _ c hc
  have hB : ∀ c < M,
      Fourier_DCT4 M (fun j => Fourier_FFTReCenter M x (2 * (M - 1 - j) + 1)) c
        = (M : ℝ) / 2 * ((-1 : ℝ) ^ c * (x (M + c) - x (M - 1 - c))) := by
    intro c hc
    rw [Fourier_DCT4_congr M _ _ hodd c]
    exact Fourier_DCT4_involution M hM _ c hc
  have hsq : ∀ c : ℕ, (-1 : ℝ) ^ c * (-1 : ℝ) ^ c = 1 := by
    intro c
    rw [← pow_add, ← two_mul, pow_mul]
    norm_num
  unfold Fourier_iFFTReCenter
  rw [if_pos hi]
  by_cases hiM : M ≤ i
  · rw [if_pos hiM]
    have hc : i - M < M := by omega
    rw [hA (i - M) hc, hB (i - M) hc]
    have hMi : M + (i - M) = i := by omega
    rw [hMi]
    have hs := hsq (i - M)
    linear_combination ((M : ℝ) / 2 * (x i - x (M - 1 - (i - M)))) * hs
  · rw [if_neg hiM]
    have hc : M - 1 - i < M := by omega
    rw [hA (M - 1 - i) hc, hB (M - 1 - i) hc]
    have hMi : M - 1 - (M - 1 - i) = i := by omega
    rw [hMi]
    have hs := hsq (M - 1 - i)
    linear_combination (-((M : ℝ) / 2 * (x (M + (M - 1 - i)) - x i))) * hs

/-! ## Window generation

Embedding of `InitXformWindow` (`src/libspectrice/Spectrice_State.c`), with
the window-type tags of `src/include/Spectrice.h` (sine 0, hann 1, hamming 2,
blackman 3, nuttall 4).  `SQR(x)` is `(x)*(x)`, written `x^2` here. -/

/-- Raw (pre-normalization) window sample of each `switch` case of
`InitXformWindow`; junk (0) for an unknown type, whose case returns failure
before any sample is produced. -/
def windowRaw (wtype N : ℕ) (n : ℕ) : ℝ :=
  match wtype with
  | 0 => Real.sin (((n : ℝ) + 0.5) * π / N)
  | 1 => 0.5 - 0.5 * Real.cos (((n : ℝ) + 0.5) * (2 * π) / N)
  | 2 => 25 / 46 - 21 / 46 * Real.cos (((n : ℝ) + 0.5) * (2 * π) / N)
  | 3 => 0.42 - 0.50 * Real.cos (((n : ℝ) + 0.5) * (2 * π) / N)
      + 0.08 * Real.cos (((n : ℝ) + 0.5) * (4 * π) / N)
  | 4 => 0.3635819 - 0.4891775 * Real.cos (((n : ℝ) + 0.5) * (2 * π) / N)
      + 0.1365995 * Real.cos (((n : ℝ) + 0.5) * (4 * π) / N)
      - 0.0106411 * Real.cos (((n : ℝ) + 0.5) * (6 * π) / N)
  | _ + 5 => 0

/-- Minimum hop count demanded by each `switch` case of `InitXformWindow`. -/
def windowMinHops (wtype : ℕ) : ℕ :=
  match wtype with
  | 0 => 2
  | 1 => 3
  | 2 => 3
  | 3 => 5
  | _ + 4 => 7

/-- Embedding of `InitXformWindow`: fails (like the `return 0` paths) on an
unknown type or too few hops; otherwise accumulates `Sum = Σ SQR(w[n])` over
`n < N/2` and scales every sample by `Norm = sqrtf(1/(Sum*nHops))`. -/
def InitXformWindow (N nHops wtype : ℕ) : Option (ℕ → ℝ) :=
  if 4 < wtype then none
  else if nHops < windowMinHops wtype then none
  else some fun n =>
    Real.sqrt (1 / ((∑ m ∈ Finset.range (N / 2), windowRaw wtype N m ^ 2) * nHops))
      * windowRaw wtype N n

/-- Symmetric extension of the half window, as used by the assembly and
accumulation loops of `Spectrice_Process` (weight `Window[n]` at position `n`
and at position `N-1-n`, for `n < N/2`). -/
def wfull (W : ℕ → ℝ) (N : ℕ) (i : ℕ) : ℝ :=
  if i < N / 2 then W i else W (N - 1 - i)

/-! ### Cosine-polynomial machinery for the window sums -/

/-- Coefficients of the square of a three-term cosine polynomial
`a₀ + a₁ cos x + a₂ cos 2x + a₃ cos 3x` in the basis `cos (t·x)`, `t ≤ 6`. -/
def cosSqCoeff (a₀ a₁ a₂ a₃ : ℝ) : ℕ → ℝ
  | 0 => a₀ ^ 2 + (a₁ ^ 2 + a₂ ^ 2 + a₃ ^ 2) / 2
  | 1 => 2 * a₀ * a₁ + a₁ * a₂ + a₂ * a₃
  | 2 => 2 * a₀ * a₂ + a₁ ^ 2 / 2 + a₁ * a₃
  | 3 => 2 * a₀ * a₃ + a₁ * a₂
  | 4 => a₂ ^ 2 / 2 + a₁ * a₃
  | 5 => a₂ * a₃
  | 6 => a₃ ^ 2 / 2
  | _ => 0

/-- Coefficients of the square of each analysis window in the cosine basis at
frequencies `t·(2π)/N`, `t ≤ 6`.  For the sine window the square is
`1/2 - cos(2y)/2` directly. -/
def winSqCoeffs (wtype : ℕ) : ℕ → ℝ :=
  match wtype with
  | 0 => fun t => if t = 0 then 1 / 2 else if t = 1 then -(1 / 2) else 0
  | 1 => cosSqCoeff 0.5 (-0.5) 0 0
  | 2 => cosSqCoeff (25 / 46) (-(21 / 46)) 0 0
  | 3 => cosSqCoeff 0.42 (-0.50) 0.08 0
  | _ + 4 => cosSqCoeff 0.3635819 (-0.4891775) 0.1365995 (-0.0106411)

/-- Evaluation of a cosine polynomial with coefficients `e` at the
half-sample grid point `m` of an `N`-point frame. -/
def trigPoly (e : ℕ → ℝ) (T N : ℕ) (m : ℕ) : ℝ :=
  ∑ t ∈ Finset.range T, e t * Real.cos (((m : ℝ) + 1 / 2) * (2 * π * t) / N)

/-- Squaring a three-term cosine polynomial in the `cos (t·x)` basis. -/
theorem cos_poly_sq (a₀ a₁ a₂ a₃ x : ℝ) :
    (a₀ + a₁ * Real.cos x + a₂ * Real.cos (2 * x) + a₃ * Real.cos (3 * x)) ^ 2
      = cosSqCoeff a₀ a₁ a₂ a₃ 0
        + cosSqCoeff a₀ a₁ a₂ a₃ 1 * Real.cos x
        + cosSqCoeff a₀ a₁ a₂ a₃ 2 * Real.cos (2 * x)
        + cosSqCoeff a₀ a₁ a₂ a₃ 3 * Real.cos (3 * x)
        + cosSqCoeff a₀ a₁ a₂ a₃ 4 * Real.cos (4 * x)
        + cosSqCoeff a₀ a₁ a₂ a₃ 5 * Real.cos (5 * x)
        + cosSqCoeff a₀ a₁ a₂ a₃ 6 * Real.cos (6 * x) := by
  have h5 : Real.cos (5 * x) = 2 * Real.cos (3 * x) * Real.cos (2 * x) - Real.cos x := by
    have hads : Real.cos (3 * x + 2 * x) + Real.cos (3 * x - 2 * x)
        = 2 * Real.cos (3 * x) * Real.cos (2 * x) := by
      rw [Real.cos_add, Real.cos_sub]; ring
    have e1 : (3 : ℝ) * x + 2 * x = 5 * x := by ring
    have e2 : (3 : ℝ) * x - 2 * x = x := by ring
    rw [e1, e2] at hads
    linarith
  have h4 : Real.cos (4 * x) = 2 * Real.cos (2 * x) ^ 2 - 1 := by
    rw [show (4 : ℝ) * x = 2 * (2 * x) by ring]
    exact Real.cos_two_mul (2 * x)
  have h6 : Real.cos (6 * x) = 2 * Real.cos (3 * x) ^ 2 - 1 := by
    rw [show (6 : ℝ) * x = 2 * (3 * x) by ring]
    exact Real.cos_two_mul (3 * x)
  rw [h5, h4, h6, Real.cos_three_mul, Real.cos_two_mul]
  simp only [cosSqCoeff]
  ring

/-- Stride sum of a cosine polynomial: summing over `H` hops of size `Q`
(`H*Q = N`) kills every nonconstant term of frequency below `H`. -/
theorem trigPoly_stride_sum (e : ℕ → ℝ) (T N H Q : ℕ) (hQH : H * Q = N)
    (hT : ∀ t, 1 ≤ t → t < T → t < H ∨ e t = 0)
    (hT0 : 0 < T) (hH : 0 < H) (hQ : 0 < Q) (p : ℕ) :
    ∑ h ∈ Finset.range H, trigPoly e T N (p + h * Q) = H * e 0 := by
  have hN : 0 < N := hQH ▸ Nat.mul_pos hH hQ
  have hNR : (0 : ℝ) < N := by exact_mod_cast hN
  have hHR : (0 : ℝ) < H := by exact_mod_cast hH
  have hQR : (0 : ℝ) < Q := by exact_mod_cast hQ
  have hNcast : (N : ℝ) = (H : ℝ) * Q := by exact_mod_cast hQH.symm
  have hπ : (0 : ℝ) < π := Real.pi_pos
  unfold trigPoly
  rw [Finset.sum_comm]
  have hterm : ∀ t ∈ Finset.range T,
      ∑ h ∈ Finset.range H, e t * Real.cos ((((p + h * Q : ℕ) : ℝ) + 1 / 2) * (2 * π * t) / N)
        = if t = 0 then (H : ℝ) * e 0 else 0 := by
    intro t ht
    by_cases ht0 : t = 0
    · subst ht0
      have hone : ∀ h ∈ Finset.range H,
          e 0 * Real.cos ((((p + h * Q : ℕ) : ℝ) + 1 / 2) * (2 * π * ((0 : ℕ) : ℝ)) / N)
            = e 0 := by
        intro h _
        have hz : (((p + h * Q : ℕ) : ℝ) + 1 / 2) * (2 * π * ((0 : ℕ) : ℝ)) / N = 0 := by
          push_cast; ring
        rw [hz, Real.cos_zero, mul_one]
      rw [Finset.sum_congr rfl hone, Finset.sum_const, Finset.card_range, if_pos rfl]
      simp [mul_comm]
    · rw [if_neg ht0]
      have ht1 : 1 ≤ t := Nat.one_le_iff_ne_zero.mpr ht0
      rcases hT t ht1 (Finset.mem_range.mp ht) with htH | hte
      swap
      · rw [hte]
        simp
      have htHR : (t : ℝ) < H := by exact_mod_cast htH
      have ht1R : (1 : ℝ) ≤ (t : ℝ) := by exact_mod_cast ht1
      rw [← Finset.mul_sum]
      have hcos : ∑ h ∈ Finset.range H,
          Real.cos ((((p + h * Q : ℕ) : ℝ) + 1 / 2) * (2 * π * t) / N) = 0 := by
        have hshape : ∀ h ∈ Finset.range H,
            Real.cos ((((p + h * Q : ℕ) : ℝ) + 1 / 2) * (2 * π * t) / N)
              = Real.cos (((p : ℝ) + 1 / 2) * (2 * π * t) / N
                  + h * ((Q : ℝ) * (2 * π * t) / N)) := by
          intro h _
          congr 1
          push_cast
          ring
        rw [Finset.sum_congr rfl hshape]
        apply sum_cos_arith_eq_zero
        · have hβ2 : (Q : ℝ) * (2 * π * t) / N / 2 = (t : ℝ) * π / H := by
            rw [hNcast]
            field_simp
            ring
          rw [hβ2]
          have hpos : 0 < (t : ℝ) * π / H := div_pos (mul_pos (by linarith) hπ) hHR
          have hlt : (t : ℝ) * π / H < π := by
            rw [div_lt_iff₀ hHR]
            calc (t : ℝ) * π < (H : ℝ) * π := mul_lt_mul_of_pos_right htHR hπ
              _ = π * H := by ring
          exact ne_of_gt (Real.sin_pos_of_pos_of_lt_pi hpos hlt)
        · have hHβ : ((p : ℝ) + 1 / 2) * (2 * π * t) / N
              + (H : ℕ) * ((Q : ℝ) * (2 * π * t) / N) - (Q : ℝ) * (2 * π * t) / N / 2
                = (((p : ℝ) + 1 / 2) * (2 * π * t) / N - (Q : ℝ) * (2 * π * t) / N / 2)
                  + (t : ℕ) * (2 * π) := by
            rw [hNcast]
            field_simp
            ring
          rw [hHβ, Real.sin_add_nat_mul_two_pi]
      rw [hcos, mul_zero]
  rw [Finset.sum_congr rfl hterm]
  have hite : ∀ t ∈ Finset.range T, (if t = 0 then (H : ℝ) * e 0 else 0)
      = (if t = 0 then (fun s : ℕ => (H : ℝ) * e 0) t else 0) := fun t _ => rfl
  rw [Finset.sum_congr rfl hite, Finset.sum_ite_eq' (Finset.range T) 0 fun _ => (H : ℝ) * e 0,
    if_pos (Finset.mem_range.mpr hT0)]

/-- Full-frame sum of a cosine polynomial. -/
theorem trigPoly_full_sum (e : ℕ → ℝ) (T N : ℕ) (hT : T ≤ N) (hT0 : 0 < T) (hN : 0 < N) :
    ∑ m ∈ Finset.range N, trigPoly e T N m = N * e 0 := by
  have h := trigPoly_stride_sum e T N N 1 (Nat.mul_one N)
    (fun t _ htT => Or.inl (lt_of_lt_of_le htT hT)) hT0 hN one_pos 0
  rw [← h]
  apply Finset.sum_congr rfl
  intro m _
  congr 1
  omega

/-- Reflection symmetry of the cosine polynomial across the frame center. -/
theorem trigPoly_reflect (e : ℕ → ℝ) (T N : ℕ) (hN : 0 < N) (i : ℕ) (hi : i < N) :
    trigPoly e T N (N - 1 - i) = trigPoly e T N i := by
  have hNR : (0 : ℝ) < N := by exact_mod_cast hN
  have hN0 : (N : ℝ) ≠ 0 := ne_of_gt hNR
  unfold trigPoly
  apply Finset.sum_congr rfl
  intro t _
  congr 1
  have h1 : (N - 1 - i) + (i + 1) = N := by omega
  have hc : ((N - 1 - i : ℕ) : ℝ) + ((i : ℝ) + 1) = N := by exact_mod_cast h1
  have hu : ((N - 1 - i : ℕ) : ℝ) = (N : ℝ) - i - 1 := by linarith
  have harg : (((N - 1 - i : ℕ) : ℝ) + 1 / 2) * (2 * π * t) / N
      = (t : ℕ) * (2 * π) - ((i : ℝ) + 1 / 2) * (2 * π * t) / N := by
    rw [hu]
    field_simp
    ring
  rw [harg, Real.cos_nat_mul_two_pi_sub]

/-- Expansion of a seven-term cosine polynomial at the half-sample grid. -/
theorem trigPoly_seven (e : ℕ → ℝ) (N m : ℕ) :
    trigPoly e 7 N m
      = e 0 + e 1 * Real.cos (((m : ℝ) + 1 / 2) * (2 * π) / N)
        + e 2 * Real.cos (2 * (((m : ℝ) + 1 / 2) * (2 * π) / N))
        + e 3 * Real.cos (3 * (((m : ℝ) + 1 / 2) * (2 * π) / N))
        + e 4 * Real.cos (4 * (((m : ℝ) + 1 / 2) * (2 * π) / N))
        + e 5 * Real.cos (5 * (((m : ℝ) + 1 / 2) * (2 * π) / N))
        + e 6 * Real.cos (6 * (((m : ℝ) + 1 / 2) * (2 * π) / N)) := by
  have a0 : ((m : ℝ) + 1 / 2) * (2 * π * ((0 : ℕ) : ℝ)) / N = 0 := by push_cast; ring
  have a1 : ((m : ℝ) + 1 / 2) * (2 * π * ((1 : ℕ) : ℝ)) / N
      = ((m : ℝ) + 1 / 2) * (2 * π) / N := by push_cast; ring
  have a2 : ((m : ℝ) + 1 / 2) * (2 * π * ((2 : ℕ) : ℝ)) / N
      = 2 * (((m : ℝ) + 1 / 2) * (2 * π) / N) := by push_cast; ring
  have a3 : ((m : ℝ) + 1 / 2) * (2 * π * ((3 : ℕ) : ℝ)) / N
      = 3 * (((m : ℝ) + 1 / 2) * (2 * π) / N) := by push_cast; ring
  have a4 : ((m : ℝ) + 1 / 2) * (2 * π * ((4 : ℕ) : ℝ)) / N
      = 4 * (((m : ℝ) + 1 / 2) * (2 * π) / N) := by push_cast; ring
  have a5 : ((m : ℝ) + 1 / 2) * (2 * π * ((5 : ℕ) : ℝ)) / N
      = 5 * (((m : ℝ) + 1 / 2) * (2 * π) / N) := by push_cast; ring
  have a6 : ((m : ℝ) + 1 / 2) * (2 * π * ((6 : ℕ) : ℝ)) / N
      = 6 * (((m : ℝ) + 1 / 2) * (2 * π) / N) := by push_cast; ring
  unfold trigPoly
  rw [Finset.sum_range_succ, Finset.sum_range_succ, Finset.sum_range_succ,
    Finset.sum_range_succ, Finset.sum_range_succ, Finset.sum_range_succ,
    Finset.sum_range_succ, Finset.sum_range_zero, a0, a1, a2, a3, a4, a5, a6,
    Real.cos_zero]
  ring

/-- Squares of the window samples expand into the seven-term cosine basis. -/
theorem windowRaw_sq (wtype N : ℕ) (hw : wtype ≤ 4) (n : ℕ) :
    windowRaw wtype N n ^ 2 = trigPoly (winSqCoeffs wtype) 7 N n := by
  have h05 : (0.5 : ℝ) = 1 / 2 := by norm_num
  interval_cases wtype
  · -- sine: sin² y = 1/2 - cos(2y)/2
    show Real.sin (((n : ℝ) + 0.5) * π / N) ^ 2 = _
    rw [trigPoly_seven, Real.sin_sq, Real.cos_sq]
    rw [show 2 * (((n : ℝ) + 0.5) * π / N) = ((n : ℝ) + 1 / 2) * (2 * π) / N by
      rw [h05]; ring]
    simp only [winSqCoeffs]
    norm_num
    ring
  · -- hann
    show (0.5 - 0.5 * Real.cos (((n : ℝ) + 0.5) * (2 * π) / N)) ^ 2 = _
    rw [trigPoly_seven, h05,
      show ((n : ℝ) + 1 / 2) * (2 * π) / N = ((n : ℝ) + 1 / 2) * (2 * π) / N from rfl]
    calc (1 / 2 - 1 / 2 * Real.cos (((n : ℝ) + 1 / 2) * (2 * π) / N)) ^ 2
        = ((0.5 : ℝ) + (-0.5) * Real.cos (((n : ℝ) + 1 / 2) * (2 * π) / N)
            + 0 * Real.cos (2 * (((n : ℝ) + 1 / 2) * (2 * π) / N))
            + 0 * Real.cos (3 * (((n : ℝ) + 1 / 2) * (2 * π) / N))) ^ 2 := by
          ring
      _ = _ := by
          rw [cos_poly_sq]
          simp only [winSqCoeffs]
  · -- hamming
    show (25 / 46 - 21 / 46 * Real.cos (((n : ℝ) + 0.5) * (2 * π) / N)) ^ 2 = _
    rw [trigPoly_seven, h05]
    calc (25 / 46 - 21 / 46 * Real.cos (((n : ℝ) + 1 / 2) * (2 * π) / N)) ^ 2
        = ((25 / 46 : ℝ) + (-(21 / 46)) * Real.cos (((n : ℝ) + 1 / 2) * (2 * π) / N)
            + 0 * Real.cos (2 * (((n : ℝ) + 1 / 2) * (2 * π) / N))
            + 0 * Real.cos (3 * (((n : ℝ) + 1 / 2) * (2 * π) / N))) ^ 2 := by
          ring
      _ = _ := by
          rw [cos_poly_sq]
          simp only [winSqCoeffs]
  · -- blackman
    show (0.42 - 0.50 * Real.cos (((n : ℝ) + 0.5) * (2 * π) / N)
        + 0.08 * Real.cos (((n : ℝ) + 0.5) * (4 * π) / N)) ^ 2 = _
    rw [trigPoly_seven, h05,
      show ((n : ℝ) + 1 / 2) * (4 * π) / N = 2 * (((n : ℝ) + 1 / 2) * (2 * π) / N) by ring]
    calc (0.42 - 0.50 * Real.cos (((n : ℝ) + 1 / 2) * (2 * π) / N)
          + 0.08 * Real.cos (2 * (((n : ℝ) + 1 / 2) * (2 * π) / N))) ^ 2
        = ((0.42 : ℝ) + (-0.50) * Real.cos (((n : ℝ) + 1 / 2) * (2 * π) / N)
            + 0.08 * Real.cos (2 * (((n : ℝ) + 1 / 2) * (2 * π) / N))
            + 0 * Real.cos (3 * (((n : ℝ) + 1 / 2) * (2 * π) / N))) ^ 2 := by
          ring
      _ = _ := by
          rw [cos_poly_sq]
          simp only [winSqCoeffs]
  · -- nuttall
    show (0.3635819 - 0.4891775 * Real.cos (((n : ℝ) + 0.5) * (2 * π) / N)
        + 0.1365995 * Real.cos (((n : ℝ) + 0.5) * (4 * π) / N)
        - 0.0106411 * Real.cos (((n : ℝ) + 0.5) * (6 * π) / N)) ^ 2 = _
    rw [trigPoly_seven, h05,
      show ((n : ℝ) + 1 / 2) * (4 * π) / N = 2 * (((n : ℝ) + 1 / 2) * (2 * π) / N) by ring,
      show ((n : ℝ) + 1 / 2) * (6 * π) / N = 3 * (((n : ℝ) + 1 / 2) * (2 * π) / N) by ring]
    calc (0.3635819 - 0.4891775 * Real.cos (((n : ℝ) + 1 / 2) * (2 * π) / N)
          + 0.1365995 * Real.cos (2 * (((n : ℝ) + 1 / 2) * (2 * π) / N))
          - 0.0106411 * Real.cos (3 * (((n : ℝ) + 1 / 2) * (2 * π) / N))) ^ 2
        = ((0.3635819 : ℝ) + (-0.4891775) * Real.cos (((n : ℝ) + 1 / 2) * (2 * π) / N)
            + 0.1365995 * Real.cos (2 * (((n : ℝ) + 1 / 2) * (2 * π) / N))
            + (-0.0106411) * Real.cos (3 * (((n : ℝ) + 1 / 2) * (2 * π) / N))) ^ 2 := by
          ring
      _ = _ := by
          rw [cos_poly_sq]
          simp only [winSqCoeffs]

/-- The constant coefficient of every window's squared expansion is positive. -/
theorem winSqCoeffs_zero_pos (wtype : ℕ) (hw : wtype ≤ 4) : 0 < winSqCoeffs wtype 0 := by
  interval_cases wtype <;> norm_num [winSqCoeffs, cosSqCoeff]

/-- Above each window's minimum hop count, the squared expansion has no
surviving coefficient. -/
theorem winSqCoeffs_vanish (wtype : ℕ) (hw : wtype ≤ 4) (t : ℕ)
    (ht : windowMinHops wtype ≤ t) : winSqCoeffs wtype t = 0 := by
  interval_cases wtype <;>
    simp only [windowMinHops] at ht <;>
    simp only [winSqCoeffs, cosSqCoeff]
  · rw [if_neg (by omega), if_neg (by omega)]
  · match t, ht with
    | (n + 3), _ => match n with
      | 0 => norm_num [cosSqCoeff]
      | 1 => norm_num [cosSqCoeff]
      | 2 => norm_num [cosSqCoeff]
      | 3 => norm_num [cosSqCoeff]
      | n + 4 => rfl
  · match t, ht with
    | (n + 3), _ => match n with
      | 0 => norm_num [cosSqCoeff]
      | 1 => norm_num [cosSqCoeff]
      | 2 => norm_num [cosSqCoeff]
      | 3 => norm_num [cosSqCoeff]
      | n + 4 => rfl
  · match t, ht with
    | (n + 5), _ => match n with
      | 0 => norm_num [cosSqCoeff]
      | 1 => norm_num [cosSqCoeff]
      | n + 2 => rfl
  · match t, ht with
    | (n + 7), _ => rfl

/-- Unfolding a successful window initialization. -/
theorem InitXformWindow_some (N H wtype : ℕ) (W : ℕ → ℝ)
    (hW : InitXformWindow N H wtype = some W) :
    wtype ≤ 4 ∧ windowMinHops wtype ≤ H ∧
      W = fun n =>
        Real.sqrt (1 / ((∑ m ∈ Finset.range (N / 2), windowRaw wtype N m ^ 2) * H))
          * windowRaw wtype N n := by
  unfold InitXformWindow at hW
  split_ifs at hW with h1 h2
  exact ⟨by omega, by omega, (Option.some.inj hW).symm⟩

/-- Every window's minimum hop count is at least 2. -/
theorem windowMinHops_ge_two (wtype : ℕ) : 2 ≤ windowMinHops wtype := by
  match wtype with
  | 0 => norm_num [windowMinHops]
  | 1 => norm_num [windowMinHops]
  | 2 => norm_num [windowMinHops]
  | 3 => norm_num [windowMinHops]
  | n + 4 => norm_num [windowMinHops]

/-- Value of the raw half-window energy. -/
theorem windowRaw_half_sum (wtype N : ℕ) (hw : wtype ≤ 4) (hN8 : 8 ≤ N) (hNe : N % 2 = 0) :
    ∑ m ∈ Finset.range (N / 2), windowRaw wtype N m ^ 2
      = N * winSqCoeffs wtype 0 / 2 := by
  set g := trigPoly (winSqCoeffs wtype) 7 N with hg
  have hsq : ∀ m : ℕ, windowRaw wtype N m ^ 2 = g m := fun m => windowRaw_sq wtype N hw m
  set M := N / 2 with hM
  have hNM : N = M + M := by omega
  have hfull : ∑ m ∈ Finset.range N, g m = N * winSqCoeffs wtype 0 :=
    trigPoly_full_sum _ 7 N (by omega) (by omega) (by omega)
  have hsplit : ∑ m ∈ Finset.range N, g m
      = (∑ m ∈ Finset.range M, g m) + ∑ j ∈ Finset.range M, g (M + j) := by
    rw [hNM]
    exact Finset.sum_range_add g M M
  have hrefl : ∑ j ∈ Finset.range M, g (M + j) = ∑ j ∈ Finset.range M, g j := by
    have hstep : ∀ j ∈ Finset.range M, g (M + j) = g (M - 1 - j) := by
      intro j hj
      have hj' : j < M := Finset.mem_range.mp hj
      have hidx : M + j = N - 1 - (M - 1 - j) := by omega
      rw [hidx, hg]
      exact trigPoly_reflect _ 7 N (by omega) (M - 1 - j) (by omega)
    rw [Finset.sum_congr rfl hstep]
    exact Finset.sum_range_reflect g M
  have htwo : (∑ m ∈ Finset.range M, g m) * 2 = N * winSqCoeffs wtype 0 := by
    rw [← hfull, hsplit, hrefl]
    ring
  rw [Finset.sum_congr rfl fun m _ => hsq m]
  linarith

/-- Normalization identity of the initialized window: the half-window energy
times the hop count is exactly one. -/
theorem window_normalization_core (wtype N H : ℕ) (W : ℕ → ℝ)
    (hW : InitXformWindow N H wtype = some W) (hN8 : 8 ≤ N) (hNe : N % 2 = 0) :
    (∑ n ∈ Finset.range (N / 2), W n ^ 2) * H = 1 := by
  obtain ⟨hw, hmin, hWdef⟩ := InitXformWindow_some N H wtype W hW
  set S := ∑ m ∈ Finset.range (N / 2), windowRaw wtype N m ^ 2 with hSdef
  have hS : S = N * winSqCoeffs wtype 0 / 2 := windowRaw_half_sum wtype N hw hN8 hNe
  have he := winSqCoeffs_zero_pos wtype hw
  have hNR : (0 : ℝ) < N := by
    have : 0 < N := by omega
    exact_mod_cast this
  have hSpos : 0 < S := by rw [hS]; positivity
  have hH : 0 < H := lt_of_lt_of_le (by omega) (le_trans (windowMinHops_ge_two wtype) hmin)
  have hHR : (0 : ℝ) < H := by exact_mod_cast hH
  have hc : (0 : ℝ) ≤ 1 / (S * H) := by positivity
  have hterm : ∀ n : ℕ,
      W n ^ 2 = 1 / (S * H) * windowRaw wtype N n ^ 2 := by
    intro n
    rw [hWdef]
    rw [mul_pow, Real.sq_sqrt hc]
  rw [Finset.sum_congr rfl fun n _ => hterm n, ← Finset.mul_sum, ← hSdef]
  field_simp

/-- Constant-overlap-add identity: the symmetric squared window summed over
all hop offsets equals `2/N` at every phase, once the hop count meets the
window's minimum. -/
theorem window_cola (wtype N H Q : ℕ) (W : ℕ → ℝ)
    (hW : InitXformWindow N H wtype = some W) (hN8 : 8 ≤ N) (hNe : N % 2 = 0)
    (hQH : H * Q = N) (hQ : 0 < Q) (p : ℕ) (hp : p < Q) :
    ∑ h ∈ Finset.range H, wfull W N (p + h * Q) ^ 2 = 2 / N := by
  obtain ⟨hw, hmin, hWdef⟩ := InitXformWindow_some N H wtype W hW
  set S := ∑ m ∈ Finset.range (N / 2), windowRaw wtype N m ^ 2 with hSdef
  have hS : S = N * winSqCoeffs wtype 0 / 2 := windowRaw_half_sum wtype N hw hN8 hNe
  have he := winSqCoeffs_zero_pos wtype hw
  have hNR : (0 : ℝ) < N := by
    have : 0 < N := by omega
    exact_mod_cast this
  have hSpos : 0 < S := by rw [hS]; positivity
  have hH : 0 < H := lt_of_lt_of_le (by omega) (le_trans (windowMinHops_ge_two wtype) hmin)
  have hHR : (0 : ℝ) < H := by exact_mod_cast hH
  have hc : (0 : ℝ) ≤ 1 / (S * H) := by positivity
  have hwfull : ∀ i < N,
      wfull W N i ^ 2 = 1 / (S * H) * trigPoly (winSqCoeffs wtype) 7 N i := by
    intro i hi
    unfold wfull
    split
    · rw [hWdef, mul_pow, Real.sq_sqrt hc, windowRaw_sq wtype N hw i]
    · rw [hWdef, mul_pow, Real.sq_sqrt hc, windowRaw_sq wtype N hw (N - 1 - i)]
      rw [trigPoly_reflect _ 7 N (by omega) i hi]
  have hidx : ∀ h ∈ Finset.range H, p + h * Q < N := by
    intro h hh
    have := Finset.mem_range.mp hh
    nlinarith
  have hstep : ∀ h ∈ Finset.range H,
      wfull W N (p + h * Q) ^ 2
        = 1 / (S * H) * trigPoly (winSqCoeffs wtype) 7 N (p + h * Q) := by
    intro h hh
    exact hwfull _ (hidx h hh)
  rw [Finset.sum_congr rfl hstep, ← Finset.mul_sum]
  rw [trigPoly_stride_sum (winSqCoeffs wtype) 7 N H Q hQH ?hvanish (by omega) hH hQ p]
  · rw [hS]
    field_simp
    ring
  case hvanish =>
    intro t ht1 ht7
    rcases lt_or_le t H with htH | htH
    · exact Or.inl htH
    · exact Or.inr (winSqCoeffs_vanish wtype hw t (le_trans hmin htH))

/-! ## State model

Embedding of `struct Spectrice_t` (`src/include/Spectrice.h`) and of
`Spectrice_Process` (`src/libspectrice/Spectrice_Process.c`).  The per-channel
slices of the internal buffers (`BfFwdLap`, `BfInvLap`, `BfAbs`, `BfArg`,
`BfArgOld`, `BfArgStep`) are disjoint — the channel loop advances each base
pointer by its slice size — so they are modelled as one record per channel.
`BfTemp` is transient scratch, fully rewritten before use inside every hop,
so it has no observable state and is not modelled.  The `HaveSnapshot` field
is read by `Spectrice_Process` and set by `Spectrice_Init`; its declaration
belongs to a header revision missing from the sources (the present
`Spectrice.h` predates it). -/

structure SpectriceChan where
  BfFwdLap : ℕ → ℝ
  BfInvLap : ℕ → ℝ
  BfAbs : ℕ → ℝ
  BfArg : ℕ → ℝ
  BfArgOld : ℕ → ℝ
  BfArgStep : ℕ → ℝ

structure Spectrice_t where
  nChan : ℕ
  BlockSize : ℕ
  nHops : ℕ
  FreezeStart : ℤ
  FreezePoint : ℤ
  FreezeFactor : ℝ
  FreezeAmp : Bool
  FreezePhase : Bool
  HaveSnapshot : Bool
  BlockIdx : ℕ
  Window : ℕ → ℝ
  chans : ℕ → SpectriceChan

/-- Embedding of C `truncf`: rounding toward zero. -/
def truncf (x : ℝ) : ℝ := if 0 ≤ x then ((⌊x⌋ : ℤ) : ℝ) else ((⌈x⌉ : ℤ) : ℝ)

/-- The truncation is always an integer. -/
theorem truncf_int (x : ℝ) : ∃ z : ℤ, truncf x = (z : ℝ) := by
  unfold truncf
  split
  · exact ⟨⌊x⌋, rfl⟩
  · exact ⟨⌈x⌉, rfl⟩

/-- Crossfade mix ratio of one hop (`Spectrice_Process`, "Get crossfade mix
ratio"): `Idx = (BlockIdx + Hop/nHops)*BlockSize`, ramp between `FreezeStart`
and `FreezePoint` (already 1 past the end point), scaled by `FreezeFactor`
and clamped to `[0,1]`.  Fidelity boundary: this embedding uses real
division, under which `(Idx-Beg)/0 = 0`; it is faithful to the C float code
only when `FreezeStart ≠ FreezePoint`.  With `FreezeStart = FreezePoint` and
`Idx < FreezePoint` the float code produces `±inf` and then NaN — that path
is modelled faithfully by `mixRatioC` below. -/
def mixRatio (S : Spectrice_t) (Hop : ℕ) : ℝ :=
  let Idx : ℝ := ((S.BlockIdx : ℝ) + (Hop : ℝ) / (S.nHops : ℝ)) * (S.BlockSize : ℝ)
  let Beg : ℝ := (S.FreezeStart : ℝ)
  let End : ℝ := (S.FreezePoint : ℝ)
  let r : ℝ := if Idx ≥ End then 1 else (Idx - Beg) / (End - Beg)
  let m : ℝ := r * S.FreezeFactor
  if m < 0 then 0 else if m > 1 then 1 else m

/-- An IEEE-754 float value as the mix-ratio computation can produce it: a
finite value (kept exact as a real), a signed infinity, or NaN. -/
inductive FloatR where
  | fin (x : ℝ)
  | pinf
  | ninf
  | nan

/-- IEEE float division of finite operands: division by zero gives a signed
infinity (NaN for `0/0`); otherwise the exact quotient. -/
def fdiv (a b : ℝ) : FloatR :=
  if b = 0 then (if a = 0 then .nan else if a > 0 then .pinf else .ninf)
  else .fin (a / b)

/-- IEEE float multiplication of a possibly special value by a finite one:
`±inf * 0 = NaN`, `±inf` times a nonzero finite keeps/flips the sign, NaN
propagates. -/
def fmulF (u : FloatR) (c : ℝ) : FloatR :=
  match u with
  | .fin x => .fin (x * c)
  | .pinf => if c = 0 then .nan else if c > 0 then .pinf else .ninf
  | .ninf => if c = 0 then .nan else if c > 0 then .ninf else .pinf
  | .nan => .nan

/-- The clamp `(m < 0) ? 0 : (m > 1) ? 1 : m` on a possibly special value:
both comparisons are false for NaN, so NaN passes through. -/
def fclamp (u : FloatR) : FloatR :=
  match u with
  | .fin x => if x < 0 then .fin 0 else if x > 1 then .fin 1 else .fin x
  | .pinf => .fin 1
  | .ninf => .fin 0
  | .nan => .nan

/-- The mix-ratio lines of `Spectrice_Process` with IEEE-754 special values
made explicit: the same `Idx`/`Beg`/`End` as `mixRatio`, but the ramp
division, the `FreezeFactor` product and the clamp follow float semantics.
For `FreezeStart = FreezePoint` and `Idx < FreezePoint` the division yields
`±inf` (NaN at `Idx = Beg`), the product with `FreezeFactor = 0` yields NaN,
and the clamp passes NaN through. -/
def mixRatioC (S : Spectrice_t) (Hop : ℕ) : FloatR :=
  let Idx : ℝ := ((S.BlockIdx : ℝ) + (Hop : ℝ) / (S.nHops : ℝ)) * (S.BlockSize : ℝ)
  let Beg : ℝ := (S.FreezeStart : ℝ)
  let End : ℝ := (S.FreezePoint : ℝ)
  let r : FloatR := if Idx ≥ End then .fin 1 else fdiv (Idx - Beg) (End - Beg)
  fclamp (fmulF r S.FreezeFactor)

/-- Windowed assembly of an analysis frame ("Apply DFT" loop):
`BfDFT[n] = Window[n]*Lap[n]` and `BfDFT[N-1-n] = Window[n]*Lap[N-1-n]` for
`n < N/2`, i.e. weight `wfull` at every position below `N`. -/
def windowedLap (W : ℕ → ℝ) (N : ℕ) (lap : ℕ → ℝ) : ℕ → ℝ := fun i =>
  if i < N then wfull W N i * lap i else 0

/-- Forward transform of the current forward lap of one channel. -/
def hopFFT (S : Spectrice_t) (ch : SpectriceChan) : ℕ → ℝ :=
  Fourier_FFTReCenter (S.BlockSize / 2) (windowedLap S.Window S.BlockSize ch.BfFwdLap)

/-- Real part of bin `n`: `BfDFT[n*2+0]`. -/
def binRe (F : ℕ → ℝ) (n : ℕ) : ℝ := F (2 * n)

/-- Imaginary part of bin `n`: `BfDFT[n*2+1]`. -/
def binIm (F : ℕ → ℝ) (n : ℕ) : ℝ := F (2 * n + 1)

/-- Magnitude of bin `n`: `sqrtf(SQR(Re) + SQR(Im))`. -/
def binAbs (F : ℕ → ℝ) (n : ℕ) : ℝ := Real.sqrt (binRe F n ^ 2 + binIm F n ^ 2)

/-- Phase of bin `n` in turns: `atan2f(Im, Re) * (1/(2π))`; C `atan2f(y, x)`
is the argument of the complex number `x + i y`. -/
def binArg (F : ℕ → ℝ) (n : ℕ) : ℝ :=
  Complex.arg ⟨binRe F n, binIm F n⟩ * (1 / (2 * π))

/-- Magnitude after the amplitude freeze:
`Abs = MixRatio*BfAbs[n] + (1-MixRatio)*Abs` when `FreezeAmp` is set. -/
def hopAbs (S : Spectrice_t) (mix : ℝ) (ch : SpectriceChan) (F : ℕ → ℝ) (n : ℕ) : ℝ :=
  if S.FreezeAmp then mix * ch.BfAbs n + (1 - mix) * binAbs F n else binAbs F n

/-- Wrapped phase delta of the phase-step freeze:
`dArg = Arg - BfArgOld[n]`, plus the expected drift `n/nHops`, wrapped by
`dArg -= truncf(dArg); dArg += 1.0f*(dArg < 0.0f)`. -/
def hopDArgWrapped (S : Spectrice_t) (ch : SpectriceChan) (F : ℕ → ℝ) (n : ℕ) : ℝ :=
  let d0 := binArg F n - ch.BfArgOld n + (n : ℝ) / (S.nHops : ℝ)
  let d1 := d0 - truncf d0
  d1 + if d1 < 0 then 1 else 0

/-- New value of `BfArgStep[n]`:
`MixRatio*BfArgStep[n] + (1-MixRatio)*dArg`. -/
def hopArgStep (S : Spectrice_t) (mix : ℝ) (ch : SpectriceChan) (F : ℕ → ℝ) (n : ℕ) : ℝ :=
  mix * ch.BfArgStep n + (1 - mix) * hopDArgWrapped S ch F n

/-- New value of `BfArg[n]`: accumulate `dArg - n/nHops` and drop the integer
part (`BfArg[n] -= truncf(BfArg[n])`; note: no negativity fix-up here). -/
def hopBfArg (S : Spectrice_t) (mix : ℝ) (ch : SpectriceChan) (F : ℕ → ℝ) (n : ℕ) : ℝ :=
  let y := ch.BfArg n + (hopArgStep S mix ch F n - (n : ℝ) / (S.nHops : ℝ))
  y - truncf y

/-- Synthesis phase of bin `n` (the accumulated phase when `FreezePhase` is
set, the analysis phase otherwise). -/
def hopArg (S : Spectrice_t) (mix : ℝ) (ch : SpectriceChan) (F : ℕ → ℝ) (n : ℕ) : ℝ :=
  if S.FreezePhase then hopBfArg S mix ch F n else binArg F n

/-- Rebuilt real part: `Re = Abs * cosf(Arg*2π)`. -/
def hopOutRe (S : Spectrice_t) (mix : ℝ) (ch : SpectriceChan) (F : ℕ → ℝ) (n : ℕ) : ℝ :=
  hopAbs S mix ch F n * Real.cos (hopArg S mix ch F n * (2 * π))

/-- Rebuilt imaginary part: `Im = Abs * sinf(Arg*2π)`. -/
def hopOutIm (S : Spectrice_t) (mix : ℝ) (ch : SpectriceChan) (F : ℕ → ℝ) (n : ℕ) : ℝ :=
  hopAbs S mix ch F n * Real.sin (hopArg S mix ch F n * (2 * π))

/-- Spectrum written back into `BfDFT` after the per-bin freeze loop. -/
def hopSpectrum (S : Spectrice_t) (mix : ℝ) (ch : SpectriceChan) (F : ℕ → ℝ) : ℕ → ℝ :=
  fun i =>
    if i < S.BlockSize then
      if i % 2 = 0 then hopOutRe S mix ch F (i / 2) else hopOutIm S mix ch F (i / 2)
    else F i

/-- Inverse transform of the processed spectrum. -/
def hopIFFT (S : Spectrice_t) (mix : ℝ) (ch : SpectriceChan) : ℕ → ℝ :=
  Fourier_iFFTReCenter (S.BlockSize / 2) (hopSpectrum S mix ch (hopFFT S ch))

/-- Inverse lap after the windowed accumulation ("Do iDFT and accumulate"):
`BfInvLap[n] += Window[n]*BfDFT[n]` and symmetrically, i.e. weight `wfull` at
every position below `N`. -/
def hopInvLapAcc (S : Spectrice_t) (mix : ℝ) (ch : SpectriceChan) : ℕ → ℝ := fun i =>
  if i < S.BlockSize then
    ch.BfInvLap i + wfull S.Window S.BlockSize i * hopIFFT S mix ch i
  else ch.BfInvLap i

/-- Samples this hop writes to the output buffer (`Output[(Hop*HopSize+n)*
nChan+Chan] = BfInvLap[n]`, read after accumulation, before the shift). -/
def hopEmit (S : Spectrice_t) (Hop : ℕ) (ch : SpectriceChan) : ℕ → ℝ := fun k =>
  hopInvLapAcc S (mixRatio S Hop) ch k

/-- One hop of `Spectrice_Process` on one channel: freeze processing,
accumulation, then the shift of both laps by `HopSize` with the tail of
`BfFwdLap` refilled from the input block and the tail of `BfInvLap` zeroed.
`inChan t` is this channel's sample of input frame `t`
(`Input[t*nChan+Chan]`).  Indices at or above `BlockSize` have no C
counterpart and stay untouched. -/
def hopStep (S : Spectrice_t) (Hop : ℕ) (inChan : ℕ → ℝ) (ch : SpectriceChan) :
    SpectriceChan :=
  let N := S.BlockSize
  let HopSize := S.BlockSize / S.nHops
  let mix := mixRatio S Hop
  let F := hopFFT S ch
  let acc := hopInvLapAcc S mix ch
  { BfFwdLap := fun i =>
      if i < N - HopSize then ch.BfFwdLap (i + HopSize)
      else if i < N then inChan (Hop * HopSize + (i - (N - HopSize)))
      else ch.BfFwdLap i
    BfInvLap := fun i =>
      if i < N - HopSize then acc (i + HopSize)
      else if i < N then 0
      else ch.BfInvLap i
    BfAbs := fun n =>
      if n < N / 2 ∧ S.FreezeAmp = true ∧ S.HaveSnapshot = false then hopAbs S mix ch F n
      else ch.BfAbs n
    BfArg := fun n =>
      if n < N / 2 ∧ S.FreezePhase = true then hopBfArg S mix ch F n else ch.BfArg n
    BfArgOld := fun n =>
      if n < N / 2 ∧ S.FreezePhase = true then binArg F n else ch.BfArgOld n
    BfArgStep := fun n =>
      if n < N / 2 ∧ S.FreezePhase = true then hopArgStep S mix ch F n else ch.BfArgStep n }

/-- The first `h` hops of one `Spectrice_Process` call on one channel. -/
def blockHops (S : Spectrice_t) (inChan : ℕ → ℝ) (ch : SpectriceChan) : ℕ → SpectriceChan
  | 0 => ch
  | h + 1 => hopStep S h inChan (blockHops S inChan ch h)

/-- One full `Spectrice_Process` call on one channel (all `nHops` hops). -/
def processChan (S : Spectrice_t) (inChan : ℕ → ℝ) (ch : SpectriceChan) : SpectriceChan :=
  blockHops S inChan ch S.nHops

/-- Output frames of one `Spectrice_Process` call on one channel: frame `j`
is emitted by hop `j / HopSize` at lap offset `j % HopSize`. -/
def chanBlockOut (S : Spectrice_t) (inChan : ℕ → ℝ) (ch : SpectriceChan) : ℕ → ℝ :=
  fun j =>
    hopEmit S (j / (S.BlockSize / S.nHops))
      (blockHops S inChan ch (j / (S.BlockSize / S.nHops)))
      (j % (S.BlockSize / S.nHops))

/-- Channel slice of an interleaved buffer: `Buf[t*nChan + c]`. -/
def chanInput (nChan c : ℕ) (Input : ℕ → ℝ) : ℕ → ℝ := fun t => Input (t * nChan + c)

/-- Embedding of `Spectrice_Process` with a non-null `Output`: the post state
(all channels processed, `BlockIdx` incremented) and the written output
buffer (flat index `j*nChan + c`; indices beyond the buffer read 0). -/
def Spectrice_Process (S : Spectrice_t) (Input : ℕ → ℝ) : Spectrice_t × (ℕ → ℝ) :=
  ({ S with
      BlockIdx := S.BlockIdx + 1
      chans := fun c =>
        if c < S.nChan then processChan S (chanInput S.nChan c Input) (S.chans c)
        else S.chans c },
   fun idx =>
     if idx / S.nChan < S.BlockSize then
       chanBlockOut S (chanInput S.nChan (idx % S.nChan) Input)
         (S.chans (idx % S.nChan)) (idx / S.nChan)
     else 0)

/-- Embedding of `Spectrice_Process` with `Output = NULL`: the `if(Output)`
block is skipped; every state update is the same. -/
def Spectrice_ProcessNull (S : Spectrice_t) (Input : ℕ → ℝ) : Spectrice_t :=
  { S with
    BlockIdx := S.BlockIdx + 1
    chans := fun c =>
      if c < S.nChan then processChan S (chanInput S.nChan c Input) (S.chans c)
      else S.chans c }

/-! ## Initialization

Embedding of `Spectrice_Init` (`src/libspectrice/Spectrice_State.c`).
Allocation success is a parameter (`allocOk`); the buffer layout itself has
no observable effect beyond supplying the zero-initialized slices. -/

/-- Embedding of the macro `SPECTRICE_IS_POWEROF_2(x)`, i.e.
`((x) & (-(x))) == (x)` on a positive two's-complement `int`: `x` is a power
of two (stated as a bounded search to stay decidable). -/
def SPECTRICE_IS_POWEROF_2 (x : ℕ) : Bool := decide (∃ k ≤ x, x = 2 ^ k)

/-- Success predicate of `Spectrice_Init`, mirroring its checks in order:
channel range, block range, hop range, the two power-of-two tests, the
snapshot/`FreezePhase` incompatibility, allocation, and the window
initialization (unknown type or hop count below the window minimum). -/
def Spectrice_Init_ok (nChan BlockSize nHops : ℕ) (FreezePhase HasSnapshot allocOk : Bool)
    (WindowType : ℕ) : Bool :=
  if nChan < 1 ∨ 255 < nChan then false
  else if BlockSize < 8 ∨ 65536 < BlockSize then false
  else if nHops < 2 ∨ BlockSize < nHops then false
  else if ¬SPECTRICE_IS_POWEROF_2 BlockSize ∨ ¬SPECTRICE_IS_POWEROF_2 nHops then false
  else if HasSnapshot && FreezePhase then false
  else if !allocOk then false
  else if 4 < WindowType ∨ nHops < windowMinHops WindowType then false
  else true

/-- Embedding of `Spectrice_Init`.  The caller-set fields are read from `S`
(as from the C struct); on success the returned state has the window
initialized, the laps and phase buffers zeroed, `BfAbs` holding the
snapshot's magnitude spectrum (or zero), and one `Spectrice_Process` call
with null output performed when a priming block is given.  `HaveSnapshot` in
the no-snapshot path is modelled from the spec (§4.4: "otherwise zero A", no
snapshot captured): the C code only ever assigns `HaveSnapshot = 1` in the
snapshot branch and relies on the caller's zero-initialized field. -/
def Spectrice_Init (S : Spectrice_t) (WindowType : ℕ) (PrimingInput : Option (ℕ → ℝ))
    (FreezeSnapshot : Option (ℕ → ℝ)) (allocOk : Bool) : Option Spectrice_t :=
  if S.nChan < 1 ∨ 255 < S.nChan then none
  else if S.BlockSize < 8 ∨ 65536 < S.BlockSize then none
  else if S.nHops < 2 ∨ S.BlockSize < S.nHops then none
  else if ¬SPECTRICE_IS_POWEROF_2 S.BlockSize ∨ ¬SPECTRICE_IS_POWEROF_2 S.nHops then none
  else if FreezeSnapshot.isSome && S.FreezePhase then none
  else if !allocOk then none
  else
    match InitXformWindow S.BlockSize S.nHops WindowType with
    | none => none
    | some W =>
      let S1 : Spectrice_t :=
        { S with
          BlockIdx := 0
          HaveSnapshot := FreezeSnapshot.isSome
          Window := W
          chans := fun c =>
            { BfFwdLap := fun _ => 0
              BfInvLap := fun _ => 0
              BfAbs :=
                match FreezeSnapshot with
                | some snap => fun n =>
                    if n < S.BlockSize / 2 then
                      binAbs (Fourier_FFTReCenter (S.BlockSize / 2)
                        (windowedLap W S.BlockSize (chanInput S.nChan c snap))) n
                    else 0
                | none => fun _ => 0
              BfArg := fun _ => 0
              BfArgOld := fun _ => 0
              BfArgStep := fun _ => 0 } }
      match PrimingInput with
      | some prim => some (Spectrice_ProcessNull S1 prim)
      | none => some S1

/-! ## Memory-lifecycle model

The allocation behavior of `Spectrice_Init` / `Spectrice_Destroy` concerns
`malloc`/`free` on `State->BufferData`.  It is modelled with an abstract heap
of live allocation identifiers: freeing `NULL` is a no-op, freeing a live
pointer removes it, and freeing a non-live pointer is undefined behavior
(`none`).  This model carries no real-number content and is fully
decidable. -/

structure Heap where
  live : List ℕ
  fresh : ℕ
deriving DecidableEq

/-- Abstract `malloc`: on success returns a fresh live identifier. -/
def hmalloc (h : Heap) (allocOk : Bool) : Heap × Option ℕ :=
  if allocOk then ({ live := h.fresh :: h.live, fresh := h.fresh + 1 }, some h.fresh)
  else (h, none)

/-- Abstract `free`: freeing `NULL` is a no-op; freeing a pointer that is not
live (double free) is undefined behavior, modelled as `none`. -/
def hfree (h : Heap) : Option ℕ → Option Heap
  | none => some h
  | some p => if p ∈ h.live then some { h with live := h.live.erase p } else none

/-- The memory-relevant part of the state: the `BufferData` field and whether
`Spectrice_Init` reported success. -/
structure SpectriceMem where
  BufferData : Option ℕ
  ok : Bool
deriving DecidableEq

/-- Embedding of `Spectrice_Destroy`: `free(State->BufferData)`.  The code
does not modify the state, so only the heap outcome is returned. -/
def Spectrice_Destroy_mem (h : Heap) (m : SpectriceMem) : Option Heap :=
  hfree h m.BufferData

/-- Memory-lifecycle embedding of `Spectrice_Init`: `BufferData` is cleared
first ("Clear anything that is needed for EncoderState_Destroy()"), the
parameter checks run before allocation, and a window-initialization failure
calls `Spectrice_Destroy` — freeing the buffer without clearing the stale
`BufferData` pointer.  The window success test is the decidable condition of
`InitXformWindow`. -/
def Spectrice_Init_mem (nChan BlockSize nHops : ℕ) (FreezePhase HasSnapshot allocOk : Bool)
    (WindowType : ℕ) (h : Heap) : Heap × SpectriceMem :=
  if nChan < 1 ∨ 255 < nChan then (h, ⟨none, false⟩)
  else if BlockSize < 8 ∨ 65536 < BlockSize then (h, ⟨none, false⟩)
  else if nHops < 2 ∨ BlockSize < nHops then (h, ⟨none, false⟩)
  else if ¬SPECTRICE_IS_POWEROF_2 BlockSize ∨ ¬SPECTRICE_IS_POWEROF_2 nHops then
    (h, ⟨none, false⟩)
  else if HasSnapshot && FreezePhase then (h, ⟨none, false⟩)
  else
    match hmalloc h allocOk with
    | (h1, none) => (h1, ⟨none, false⟩)
    | (h1, some p) =>
      if 4 < WindowType ∨ nHops < windowMinHops WindowType then
        match hfree h1 (some p) with
        | some h2 => (h2, ⟨some p, false⟩)
        | none => (h1, ⟨some p, false⟩)
      else (h1, ⟨some p, true⟩)

/-! ## Bridging lemmas for initialization success -/

/-- The power-of-two macro holds exactly on the powers of two. -/
theorem SPECTRICE_IS_POWEROF_2_iff (x : ℕ) :
    SPECTRICE_IS_POWEROF_2 x = true ↔ ∃ k, x = 2 ^ k := by
  unfold SPECTRICE_IS_POWEROF_2
  rw [decide_eq_true_iff]
  constructor
  · rintro ⟨k, _, hk⟩
    exact ⟨k, hk⟩
  · rintro ⟨k, hk⟩
    refine ⟨k, ?_, hk⟩
    rw [hk]
    exact Nat.le_of_lt (Nat.lt_two_pow k)

/-- Window initialization fails exactly on an unknown type or a hop count
below the window's minimum. -/
theorem InitXformWindow_none_iff (N H wtype : ℕ) :
    InitXformWindow N H wtype = none ↔ (4 < wtype ∨ H < windowMinHops wtype) := by
  unfold InitXformWindow
  split_ifs with h1 h2
  · simp [h1]
  · simp [h1, h2]
  · simp [h1, h2]

/-- Success of the full `Spectrice_Init` embedding coincides with the
decidable success predicate. -/
theorem Spectrice_Init_isSome_eq (S : Spectrice_t) (wt : ℕ) (prim snap : Option (ℕ → ℝ))
    (alloc : Bool) :
    (Spectrice_Init S wt prim snap alloc).isSome
      = Spectrice_Init_ok S.nChan S.BlockSize S.nHops S.FreezePhase snap.isSome alloc wt := by
  unfold Spectrice_Init Spectrice_Init_ok
  split_ifs with h1 h2 h3 h4 h5 h6 h7
  · rfl
  · rfl
  · rfl
  · rfl
  · rfl
  · rfl
  · rw [(InitXformWindow_none_iff S.BlockSize S.nHops wt).mpr h7]
    rfl
  · rcases hxw : InitXformWindow S.BlockSize S.nHops wt with _ | W
    · rw [InitXformWindow_none_iff] at hxw
      exact absurd hxw h7
    · rcases prim with _ | p
      · rfl
      · rfl

/-! ## Polar round trip

The per-bin conversion `(Re,Im) → (Abs,Arg) → (Re,Im)` is exact over the
reals, including at the origin (`atan2f(0,0) = 0`, and the magnitude is 0). -/

/-- Rebuilding the real part from magnitude and phase recovers it exactly. -/
theorem binAbs_mul_cos (F : ℕ → ℝ) (n : ℕ) :
    binAbs F n * Real.cos (binArg F n * (1 / (2 * π))⁻¹) = binRe F n := by
  unfold binAbs binArg
  have habs : Real.sqrt (binRe F n ^ 2 + binIm F n ^ 2)
      = Complex.abs ⟨binRe F n, binIm F n⟩ := by
    rw [Complex.abs_apply, Complex.normSq_mk]
    congr 1
    ring
  have hπ : (1 / (2 * π) : ℝ) ≠ 0 := by
    have := Real.pi_pos
    positivity
  rw [mul_inv_cancel_right₀ hπ, habs]
  exact Complex.abs_mul_cos_arg _

/-- Rebuilding the imaginary part from magnitude and phase recovers it
exactly. -/
theorem binAbs_mul_sin (F : ℕ → ℝ) (n : ℕ) :
    binAbs F n * Real.sin (binArg F n * (1 / (2 * π))⁻¹) = binIm F n := by
  unfold binAbs binArg
  have habs : Real.sqrt (binRe F n ^ 2 + binIm F n ^ 2)
      = Complex.abs ⟨binRe F n, binIm F n⟩ := by
    rw [Complex.abs_apply, Complex.normSq_mk]
    congr 1
    ring
  have hπ : (1 / (2 * π) : ℝ) ≠ 0 := by
    have := Real.pi_pos
    positivity
  rw [mul_inv_cancel_right₀ hπ, habs]
  exact Complex.abs_mul_sin_arg _

/-- The synthesis angle is measured in turns; scaling by `2π` inverts the
normalization. -/
theorem turns_scale (x : ℝ) : x * (2 * π) = x * (1 / (2 * π))⁻¹ := by
  have := Real.pi_pos
  rw [one_div, inv_inv]

/-! ## Mix-ratio facts (claim C6 support) -/

/-- Spec-side mix ratio, following the claim's words: the raw ratio
`r = (Idx - FreezeStart)/(FreezePoint - FreezeStart)` with `r = 1` once
`Idx ≥ FreezePoint`, then `clamp(r·FreezeFactor, 0, 1)`. -/
def mixRatioSpec (FreezeFactor Beg End Idx : ℝ) : ℝ :=
  min 1 (max 0 ((if Idx ≥ End then 1 else (Idx - Beg) / (End - Beg)) * FreezeFactor))

/-- The code's clamp agrees with `min/max` clamping. -/
theorem mixRatio_eq_spec (S : Spectrice_t) (Hop : ℕ) :
    mixRatio S Hop
      = mixRatioSpec S.FreezeFactor (S.FreezeStart : ℝ) (S.FreezePoint : ℝ)
          (((S.BlockIdx : ℝ) + (Hop : ℝ) / (S.nHops : ℝ)) * (S.BlockSize : ℝ)) := by
  unfold mixRatio mixRatioSpec
  simp only []
  set r : ℝ :=
    (if ((S.BlockIdx : ℝ) + (Hop : ℝ) / (S.nHops : ℝ)) * (S.BlockSize : ℝ) ≥ (S.FreezePoint : ℝ)
      then (1 : ℝ)
      else (((S.BlockIdx : ℝ) + (Hop : ℝ) / (S.nHops : ℝ)) * (S.BlockSize : ℝ)
          - (S.FreezeStart : ℝ)) / ((S.FreezePoint : ℝ) - (S.FreezeStart : ℝ))) with hr
  split_ifs with h1 h2
  · rw [max_eq_left (le_of_lt h1), min_eq_right (by norm_num : (0 : ℝ) ≤ 1)]
  · rw [max_eq_right (not_lt.mp h1), min_eq_left (le_of_lt h2)]
  · rw [max_eq_right (not_lt.mp h1), min_eq_right (not_lt.mp h2)]

/-- Monotonicity of the code clamp. -/
theorem clamp_mono (a b : ℝ) (h : a ≤ b) :
    (if a < 0 then (0 : ℝ) else if a > 1 then 1 else a)
      ≤ (if b < 0 then (0 : ℝ) else if b > 1 then 1 else b) := by
  split_ifs <;> linarith

/-- The per-hop mix ratio is monotonically non-decreasing in the hop index
whenever `FreezeFactor ≥ 0` and `FreezeStart < FreezePoint`. -/
theorem mixRatio_mono (S : Spectrice_t) (hF : 0 ≤ S.FreezeFactor)
    (hBE : S.FreezeStart < S.FreezePoint) (hH : 0 < S.nHops)
    (h1 h2 : ℕ) (hh : h1 ≤ h2) : mixRatio S h1 ≤ mixRatio S h2 := by
  have hHR : (0 : ℝ) < S.nHops := by exact_mod_cast hH
  have hBER : (S.FreezeStart : ℝ) < (S.FreezePoint : ℝ) := by exact_mod_cast hBE
  have hNR : (0 : ℝ) ≤ (S.BlockSize : ℝ) := Nat.cast_nonneg _
  have hIdx : ((S.BlockIdx : ℝ) + (h1 : ℝ) / (S.nHops : ℝ)) * (S.BlockSize : ℝ)
      ≤ ((S.BlockIdx : ℝ) + (h2 : ℝ) / (S.nHops : ℝ)) * (S.BlockSize : ℝ) := by
    apply mul_le_mul_of_nonneg_right _ hNR
    have hcast : (h1 : ℝ) ≤ (h2 : ℝ) := by exact_mod_cast hh
    have hdiv : (h1 : ℝ) / (S.nHops : ℝ) ≤ (h2 : ℝ) / (S.nHops : ℝ) := by gcongr
    linarith
  unfold mixRatio
  simp only []
  apply clamp_mono
  apply mul_le_mul_of_nonneg_right _ hF
  split_ifs with ha hb
  · exact le_refl 1
  · exact absurd (le_trans ha hIdx) hb
  · rw [div_le_one (by linarith : (0 : ℝ) < (S.FreezePoint : ℝ) - (S.FreezeStart : ℝ))]
    have := not_le.mp ha
    linarith
  · have hpos : (0 : ℝ) < (S.FreezePoint : ℝ) - (S.FreezeStart : ℝ) := by linarith
    apply div_le_div_of_nonneg_right ?_ hpos.le
    case _ => linarith

/-! ## Hop analysis at mix ratio zero (claim C1 support)

With `FreezeFactor = 0` the mix ratio of every hop is 0, the freeze mixers
leave magnitude and (modulo full turns) phase untouched, and a hop reduces to
the windowed overlap-add of `N/2` times the windowed forward lap. -/

/-- With `FreezeFactor = 0` every hop's mix ratio is zero. -/
theorem mixRatio_zero (S : Spectrice_t) (Hop : ℕ) (hF : S.FreezeFactor = 0) :
    mixRatio S Hop = 0 := by
  unfold mixRatio
  simp only [hF, mul_zero]
  norm_num

/-- Phase-bookkeeping invariant: the accumulated synthesis phase and the last
observed analysis phase agree modulo whole turns, per bin.  It holds after
initialization (both are zero) and is preserved by unmixed hops. -/
def PhaseInv (ch : SpectriceChan) : Prop :=
  ∀ n, ∃ z : ℤ, ch.BfArg n - ch.BfArgOld n = (z : ℝ)

/-- The wrapped phase delta differs from the raw delta by an integer. -/
theorem hopDArgWrapped_offset (S : Spectrice_t) (ch : SpectriceChan) (F : ℕ → ℝ) (n : ℕ) :
    ∃ z : ℤ, hopDArgWrapped S ch F n
      = binArg F n - ch.BfArgOld n + (n : ℝ) / (S.nHops : ℝ) - (z : ℝ) := by
  unfold hopDArgWrapped
  simp only []
  obtain ⟨z1, hz1⟩ := truncf_int (binArg F n - ch.BfArgOld n + (n : ℝ) / (S.nHops : ℝ))
  rw [hz1]
  split_ifs with h
  · exact ⟨z1 - 1, by push_cast; ring⟩
  · exact ⟨z1, by ring⟩

/-- At mix ratio zero the new accumulated phase differs from the analysis
phase by an integer, given the phase invariant. -/
theorem hopBfArg_offset (S : Spectrice_t) (ch : SpectriceChan) (F : ℕ → ℝ) (n : ℕ)
    (hz : ∃ z : ℤ, ch.BfArg n - ch.BfArgOld n = (z : ℝ)) :
    ∃ z : ℤ, hopBfArg S 0 ch F n = binArg F n + (z : ℝ) := by
  obtain ⟨z0, hz0⟩ := hz
  obtain ⟨z1, hz1⟩ := hopDArgWrapped_offset S ch F n
  unfold hopBfArg hopArgStep
  simp only []
  rw [hz1]
  obtain ⟨z2, hz2⟩ := truncf_int
    (ch.BfArg n + (0 * ch.BfArgStep n
        + (1 - 0) * (binArg F n - ch.BfArgOld n + (n : ℝ) / (S.nHops : ℝ) - (z1 : ℝ))
      - (n : ℝ) / (S.nHops : ℝ)))
  rw [hz2]
  exact ⟨z0 - z1 - z2, by push_cast; linarith⟩

/-- At mix ratio zero the amplitude freeze is the identity. -/
theorem hopAbs_zero (S : Spectrice_t) (ch : SpectriceChan) (F : ℕ → ℝ) (n : ℕ) :
    hopAbs S 0 ch F n = binAbs F n := by
  unfold hopAbs
  split
  · ring
  · rfl

/-- At mix ratio zero the rebuilt real part equals the analyzed one. -/
theorem hopOutRe_zero (S : Spectrice_t) (ch : SpectriceChan) (F : ℕ → ℝ) (n : ℕ)
    (hinv : ∃ z : ℤ, ch.BfArg n - ch.BfArgOld n = (z : ℝ)) :
    hopOutRe S 0 ch F n = binRe F n := by
  unfold hopOutRe hopArg
  rw [hopAbs_zero]
  split
  · obtain ⟨z, hz⟩ := hopBfArg_offset S ch F n hinv
    rw [hz, turns_scale (binArg F n + (z : ℝ))]
    rw [show (binArg F n + (z : ℝ)) * (1 / (2 * π))⁻¹
        = binArg F n * (1 / (2 * π))⁻¹ + (z : ℝ) * (2 * π) by
      rw [one_div, inv_inv]; ring]
    rw [Real.cos_add_int_mul_two_pi]
    exact binAbs_mul_cos F n
  · rw [turns_scale]
    exact binAbs_mul_cos F n

/-- At mix ratio zero the rebuilt imaginary part equals the analyzed one. -/
theorem hopOutIm_zero (S : Spectrice_t) (ch : SpectriceChan) (F : ℕ → ℝ) (n : ℕ)
    (hinv : ∃ z : ℤ, ch.BfArg n - ch.BfArgOld n = (z : ℝ)) :
    hopOutIm S 0 ch F n = binIm F n := by
  unfold hopOutIm hopArg
  rw [hopAbs_zero]
  split
  · obtain ⟨z, hz⟩ := hopBfArg_offset S ch F n hinv
    rw [hz, turns_scale (binArg F n + (z : ℝ))]
    rw [show (binArg F n + (z : ℝ)) * (1 / (2 * π))⁻¹
        = binArg F n * (1 / (2 * π))⁻¹ + (z : ℝ) * (2 * π) by
      rw [one_div, inv_inv]; ring]
    rw [Real.sin_add_int_mul_two_pi]
    exact binAbs_mul_sin F n
  · rw [turns_scale]
    exact binAbs_mul_sin F n

/-- At mix ratio zero the freeze loop writes the spectrum back unchanged. -/
theorem hopSpectrum_zero (S : Spectrice_t) (ch : SpectriceChan) (F : ℕ → ℝ)
    (hinv : PhaseInv ch) : hopSpectrum S 0 ch F = F := by
  funext i
  unfold hopSpectrum
  split_ifs with h1 h2
  · rw [hopOutRe_zero S ch F (i / 2) (hinv (i / 2))]
    unfold binRe
    congr 1
    omega
  · rw [hopOutIm_zero S ch F (i / 2) (hinv (i / 2))]
    unfold binIm
    congr 1
    omega
  · rfl

/-- At mix ratio zero the accumulated inverse lap gains `N/2` times the
squared symmetric window times the forward lap, pointwise below `N`. -/
theorem hopInvLapAcc_zero (S : Spectrice_t) (ch : SpectriceChan) (hinv : PhaseInv ch)
    (hNe : S.BlockSize % 2 = 0) (hM : 0 < S.BlockSize / 2) (i : ℕ) (hi : i < S.BlockSize) :
    hopInvLapAcc S 0 ch i
      = ch.BfInvLap i
        + ((S.BlockSize / 2 : ℕ) : ℝ) * wfull S.Window S.BlockSize i ^ 2
          * ch.BfFwdLap i := by
  unfold hopInvLapAcc hopIFFT
  rw [if_pos hi, hopSpectrum_zero S ch _ hinv]
  unfold hopFFT
  rw [fft_roundtrip (S.BlockSize / 2) hM _ i (by omega)]
  unfold windowedLap
  rw [if_pos hi]
  ring

/-- Per-channel view of a sequence of input blocks as one sample stream:
sample `t` of channel `c` is `InSeq (t/N) ((t%N)*nChan + c)`. -/
def chanStream (N nChan c : ℕ) (InSeq : ℕ → ℕ → ℝ) : ℕ → ℝ := fun t =>
  InSeq (t / N) ((t % N) * nChan + c)

/-- A stream delayed by one block of `N` samples, zero-padded at the start. -/
def delayedStream (N : ℕ) (x : ℕ → ℝ) : ℕ → ℝ := fun t => if t < N then 0 else x (t - N)

/-- Iterated `Spectrice_Process` calls on a sequence of input blocks. -/
def stateAfter (S₀ : Spectrice_t) (InSeq : ℕ → ℕ → ℝ) : ℕ → Spectrice_t
  | 0 => S₀
  | b + 1 => (Spectrice_Process (stateAfter S₀ InSeq b) (InSeq b)).1

/-- Forward-lap invariant after `g` global hops: the lap holds the most
recent `N` stream samples of the delayed (zero-padded) stream. -/
def FwdLapInv (S : Spectrice_t) (x : ℕ → ℝ) (g : ℕ) (ch : SpectriceChan) : Prop :=
  ∀ i < S.BlockSize,
    ch.BfFwdLap i
      = delayedStream S.BlockSize x (g * (S.BlockSize / S.nHops) + i)

/-- Inverse-lap invariant after `g` global hops: each entry is the partial
overlap-add of the past hops' contributions to the same stream sample. -/
def InvLapInv (S : Spectrice_t) (x : ℕ → ℝ) (g : ℕ) (ch : SpectriceChan) : Prop :=
  ∀ i < S.BlockSize,
    ch.BfInvLap i
      = ∑ e ∈ Finset.range g,
          (if i + (e + 1) * (S.BlockSize / S.nHops) < S.BlockSize then
            ((S.BlockSize / 2 : ℕ) : ℝ)
              * wfull S.Window S.BlockSize (i + (e + 1) * (S.BlockSize / S.nHops)) ^ 2
              * delayedStream S.BlockSize x (g * (S.BlockSize / S.nHops) + i)
          else 0)

/-- Unmixed hops preserve the phase invariant. -/
theorem hopStep_phaseInv (S : Spectrice_t) (Hop : ℕ) (inChan : ℕ → ℝ) (ch : SpectriceChan)
    (hF : S.FreezeFactor = 0) (hphase : PhaseInv ch) :
    PhaseInv (hopStep S Hop inChan ch) := by
  intro n
  simp only [hopStep]
  by_cases hc : n < S.BlockSize / 2 ∧ S.FreezePhase = true
  · rw [if_pos hc, if_pos hc, mixRatio_zero S Hop hF]
    obtain ⟨z, hz⟩ := hopBfArg_offset S ch (hopFFT S ch) n (hphase n)
    exact ⟨z, by rw [hz]; ring⟩
  · rw [if_neg hc, if_neg hc]
    exact hphase n

/-- An unmixed hop shifts the forward lap and appends the next hop of input:
the forward-lap invariant advances by one hop, provided the appended input
samples agree with the stream. -/
theorem hopStep_fwdLap (S : Spectrice_t) (Hop : ℕ) (inChan : ℕ → ℝ) (ch : SpectriceChan)
    (x : ℕ → ℝ) (g : ℕ)
    (hH : 0 < S.nHops) (hQH : S.nHops * (S.BlockSize / S.nHops) = S.BlockSize)
    (hfwd : FwdLapInv S x g ch)
    (hin : ∀ t < S.BlockSize / S.nHops,
      inChan (Hop * (S.BlockSize / S.nHops) + t) = x (g * (S.BlockSize / S.nHops) + t)) :
    FwdLapInv S x (g + 1) (hopStep S Hop inChan ch) := by
  have hQN : S.BlockSize / S.nHops ≤ S.BlockSize := by
    calc S.BlockSize / S.nHops ≤ S.nHops * (S.BlockSize / S.nHops) :=
          Nat.le_mul_of_pos_left _ hH
      _ = S.BlockSize := hQH
  intro i hi
  simp only [hopStep]
  split_ifs with h1
  · rw [hfwd (i + S.BlockSize / S.nHops) (by omega)]
    have harg : g * (S.BlockSize / S.nHops) + (i + S.BlockSize / S.nHops)
        = (g + 1) * (S.BlockSize / S.nHops) + i := by ring
    rw [harg]
  · have hgq : (g + 1) * (S.BlockSize / S.nHops)
        = g * (S.BlockSize / S.nHops) + S.BlockSize / S.nHops := by ring
    have ht : i - (S.BlockSize - S.BlockSize / S.nHops) < S.BlockSize / S.nHops := by omega
    rw [hin _ ht]
    unfold delayedStream
    rw [if_neg (by omega)]
    congr 1
    omega

/-- An unmixed hop advances the inverse-lap invariant by one hop. -/
theorem hopStep_invLap (S : Spectrice_t) (Hop : ℕ) (inChan : ℕ → ℝ) (ch : SpectriceChan)
    (x : ℕ → ℝ) (g : ℕ)
    (hF : S.FreezeFactor = 0) (hNe : S.BlockSize % 2 = 0) (hM : 0 < S.BlockSize / 2)
    (hH : 0 < S.nHops) (hQH : S.nHops * (S.BlockSize / S.nHops) = S.BlockSize)
    (hphase : PhaseInv ch) (hfwd : FwdLapInv S x g ch) (hinv : InvLapInv S x g ch) :
    InvLapInv S x (g + 1) (hopStep S Hop inChan ch) := by
  have hQN : S.BlockSize / S.nHops ≤ S.BlockSize := by
    calc S.BlockSize / S.nHops ≤ S.nHops * (S.BlockSize / S.nHops) :=
          Nat.le_mul_of_pos_left _ hH
      _ = S.BlockSize := hQH
  intro i hi
  simp only [hopStep]
  split_ifs with h1
  · have hiQ : i + S.BlockSize / S.nHops < S.BlockSize := by omega
    rw [mixRatio_zero S Hop hF, hopInvLapAcc_zero S ch hphase hNe hM _ hiQ,
      hinv _ hiQ, hfwd _ hiQ]
    rw [Finset.sum_range_succ' (fun e =>
      if i + (e + 1) * (S.BlockSize / S.nHops) < S.BlockSize then
        ((S.BlockSize / 2 : ℕ) : ℝ)
          * wfull S.Window S.BlockSize (i + (e + 1) * (S.BlockSize / S.nHops)) ^ 2
          * delayedStream S.BlockSize x ((g + 1) * (S.BlockSize / S.nHops) + i)
      else 0) g]
    congr 1
    · apply Finset.sum_congr rfl
      intro e _
      have hidx : i + S.BlockSize / S.nHops + (e + 1) * (S.BlockSize / S.nHops)
          = i + (e + 1 + 1) * (S.BlockSize / S.nHops) := by ring
      have harg : g * (S.BlockSize / S.nHops) + (i + S.BlockSize / S.nHops)
          = (g + 1) * (S.BlockSize / S.nHops) + i := by ring
      rw [hidx, harg]
    · have harg : g * (S.BlockSize / S.nHops) + (i + S.BlockSize / S.nHops)
          = (g + 1) * (S.BlockSize / S.nHops) + i := by ring
      rw [if_pos (by omega : i + (0 + 1) * (S.BlockSize / S.nHops) < S.BlockSize), harg]
      have hidx : i + (0 + 1) * (S.BlockSize / S.nHops) = i + S.BlockSize / S.nHops := by
        ring
      rw [hidx]
  · symm
    apply Finset.sum_eq_zero
    intro e _
    have hcond : ¬(i + (e + 1) * (S.BlockSize / S.nHops) < S.BlockSize) := by
      have hQle : S.BlockSize / S.nHops ≤ (e + 1) * (S.BlockSize / S.nHops) :=
        Nat.le_mul_of_pos_left _ (by omega)
      omega
    rw [if_neg hcond]

/-- Output of an unmixed hop: the delayed stream sample, exactly.  For early
hops both sides are zero; once the overlap is full, the COLA identity makes
the accumulated window gain exactly one. -/
theorem hopEmit_clean (S : Spectrice_t) (Hop : ℕ) (ch : SpectriceChan)
    (x : ℕ → ℝ) (g : ℕ)
    (hF : S.FreezeFactor = 0) (hNe : S.BlockSize % 2 = 0) (hM : 0 < S.BlockSize / 2)
    (hH : 0 < S.nHops) (hQH : S.nHops * (S.BlockSize / S.nHops) = S.BlockSize)
    (hphase : PhaseInv ch) (hfwd : FwdLapInv S x g ch) (hinv : InvLapInv S x g ch)
    (hcola : ∀ p < S.BlockSize / S.nHops,
      ∑ h ∈ Finset.range S.nHops,
        wfull S.Window S.BlockSize (p + h * (S.BlockSize / S.nHops)) ^ 2
          = 2 / (S.BlockSize : ℝ))
    (k : ℕ) (hk : k < S.BlockSize / S.nHops) :
    hopEmit S Hop ch k = delayedStream S.BlockSize x (g * (S.BlockSize / S.nHops) + k) := by
  have hQN : S.BlockSize / S.nHops ≤ S.BlockSize := by
    calc S.BlockSize / S.nHops ≤ S.nHops * (S.BlockSize / S.nHops) :=
          Nat.le_mul_of_pos_left _ hH
      _ = S.BlockSize := hQH
  have hkN : k < S.BlockSize := by omega
  unfold hopEmit
  rw [mixRatio_zero S Hop hF, hopInvLapAcc_zero S ch hphase hNe hM _ hkN,
    hinv _ hkN, hfwd _ hkN]
  by_cases hG : S.nHops - 1 ≤ g
  · -- full overlap: assemble the COLA sum
    have hsub : Finset.range (S.nHops - 1) ⊆ Finset.range g := by
      intro e he
      rw [Finset.mem_range] at he ⊢
      omega
    have hvanish : ∀ e ∈ Finset.range g, e ∉ Finset.range (S.nHops - 1) →
        (if k + (e + 1) * (S.BlockSize / S.nHops) < S.BlockSize then
          ((S.BlockSize / 2 : ℕ) : ℝ)
            * wfull S.Window S.BlockSize (k + (e + 1) * (S.BlockSize / S.nHops)) ^ 2
            * delayedStream S.BlockSize x (g * (S.BlockSize / S.nHops) + k)
        else 0) = 0 := by
      intro e he hne
      rw [Finset.mem_range, not_lt] at hne
      have hcond : ¬(k + (e + 1) * (S.BlockSize / S.nHops) < S.BlockSize) := by
        have hmul : S.nHops * (S.BlockSize / S.nHops) ≤ (e + 1) * (S.BlockSize / S.nHops) :=
          Nat.mul_le_mul_right _ (by omega)
        omega
      rw [if_neg hcond]
    rw [← Finset.sum_subset hsub hvanish]
    have htrue : ∀ e ∈ Finset.range (S.nHops - 1),
        (if k + (e + 1) * (S.BlockSize / S.nHops) < S.BlockSize then
          ((S.BlockSize / 2 : ℕ) : ℝ)
            * wfull S.Window S.BlockSize (k + (e + 1) * (S.BlockSize / S.nHops)) ^ 2
            * delayedStream S.BlockSize x (g * (S.BlockSize / S.nHops) + k)
        else 0)
          = ((S.BlockSize / 2 : ℕ) : ℝ)
            * wfull S.Window S.BlockSize (k + (e + 1) * (S.BlockSize / S.nHops)) ^ 2
            * delayedStream S.BlockSize x (g * (S.BlockSize / S.nHops) + k) := by
      intro e he
      rw [Finset.mem_range] at he
      have h1 : (e + 1) * (S.BlockSize / S.nHops)
          ≤ (S.nHops - 1) * (S.BlockSize / S.nHops) :=
        Nat.mul_le_mul_right _ (by omega)
      have h2 : (S.nHops - 1) * (S.BlockSize / S.nHops) + S.BlockSize / S.nHops
          = S.nHops * (S.BlockSize / S.nHops) := by
        have h4 : S.nHops - 1 + 1 = S.nHops := by omega
        calc (S.nHops - 1) * (S.BlockSize / S.nHops) + S.BlockSize / S.nHops
            = (S.nHops - 1 + 1) * (S.BlockSize / S.nHops) := by ring
          _ = S.nHops * (S.BlockSize / S.nHops) := by rw [h4]
      rw [if_pos (by omega)]
    rw [Finset.sum_congr rfl htrue]
    have hassemble := Finset.sum_range_succ' (fun d =>
      ((S.BlockSize / 2 : ℕ) : ℝ)
        * wfull S.Window S.BlockSize (k + d * (S.BlockSize / S.nHops)) ^ 2
        * delayedStream S.BlockSize x (g * (S.BlockSize / S.nHops) + k)) (S.nHops - 1)
    simp only [] at hassemble
    have hHm1 : S.nHops - 1 + 1 = S.nHops := by omega
    rw [hHm1] at hassemble
    have hzero : k + 0 * (S.BlockSize / S.nHops) = k := by ring
    rw [hzero] at hassemble
    rw [← hassemble]
    have hfactor : ∑ d ∈ Finset.range S.nHops,
        ((S.BlockSize / 2 : ℕ) : ℝ)
          * wfull S.Window S.BlockSize (k + d * (S.BlockSize / S.nHops)) ^ 2
          * delayedStream S.BlockSize x (g * (S.BlockSize / S.nHops) + k)
        = ((S.BlockSize / 2 : ℕ) : ℝ)
          * delayedStream S.BlockSize x (g * (S.BlockSize / S.nHops) + k)
          * ∑ d ∈ Finset.range S.nHops,
              wfull S.Window S.BlockSize (k + d * (S.BlockSize / S.nHops)) ^ 2 := by
      rw [Finset.mul_sum]
      apply Finset.sum_congr rfl
      intro d _
      ring
    rw [hfactor, hcola k hk]
    have hN0 : (S.BlockSize : ℝ) ≠ 0 := by
      have hpos : 0 < S.BlockSize := by omega
      exact_mod_cast Nat.pos_iff_ne_zero.mp hpos
    have hcast : ((S.BlockSize / 2 : ℕ) : ℝ) * 2 = (S.BlockSize : ℝ) := by
      have h5 : S.BlockSize / 2 * 2 = S.BlockSize := by omega
      exact_mod_cast h5
    rw [div_eq_mul_inv]
    calc ((S.BlockSize / 2 : ℕ) : ℝ)
          * delayedStream S.BlockSize x (g * (S.BlockSize / S.nHops) + k)
          * (2 * (S.BlockSize : ℝ)⁻¹)
        = (((S.BlockSize / 2 : ℕ) : ℝ) * 2) * (S.BlockSize : ℝ)⁻¹
          * delayedStream S.BlockSize x (g * (S.BlockSize / S.nHops) + k) := by ring
      _ = delayedStream S.BlockSize x (g * (S.BlockSize / S.nHops) + k) := by
          rw [hcast, mul_inv_cancel₀ hN0, one_mul]
  · -- partial overlap: the delayed stream sample is still zero
    have hX : delayedStream S.BlockSize x (g * (S.BlockSize / S.nHops) + k) = 0 := by
      unfold delayedStream
      rw [if_pos ?_]
      have h1 : g * (S.BlockSize / S.nHops) ≤ (S.nHops - 2) * (S.BlockSize / S.nHops) :=
        Nat.mul_le_mul_right _ (by omega)
      have h4 : (S.nHops - 2) * (S.BlockSize / S.nHops) + S.BlockSize / S.nHops
          ≤ S.nHops * (S.BlockSize / S.nHops) := by
        calc (S.nHops - 2) * (S.BlockSize / S.nHops) + S.BlockSize / S.nHops
            = (S.nHops - 2 + 1) * (S.BlockSize / S.nHops) := by ring
          _ ≤ S.nHops * (S.BlockSize / S.nHops) := Nat.mul_le_mul_right _ (by omega)
      calc g * (S.BlockSize / S.nHops) + k
          < g * (S.BlockSize / S.nHops) + S.BlockSize / S.nHops :=
            Nat.add_lt_add_left hk _
        _ ≤ (S.nHops - 2) * (S.BlockSize / S.nHops) + S.BlockSize / S.nHops :=
            Nat.add_le_add_right h1 _
        _ ≤ S.nHops * (S.BlockSize / S.nHops) := h4
        _ = S.BlockSize := hQH
    rw [hX]
    simp

/-! ## Iterating hops over blocks -/

/-- Configuration fields survive iterated `Spectrice_Process` calls. -/
theorem stateAfter_nChan (S₀ : Spectrice_t) (InSeq : ℕ → ℕ → ℝ) (b : ℕ) :
    (stateAfter S₀ InSeq b).nChan = S₀.nChan := by
  induction b with
  | zero => rfl
  | succ b ih => exact ih

/-- Block size survives iterated `Spectrice_Process` calls. -/
theorem stateAfter_BlockSize (S₀ : Spectrice_t) (InSeq : ℕ → ℕ → ℝ) (b : ℕ) :
    (stateAfter S₀ InSeq b).BlockSize = S₀.BlockSize := by
  induction b with
  | zero => rfl
  | succ b ih => exact ih

/-- Hop count survives iterated `Spectrice_Process` calls. -/
theorem stateAfter_nHops (S₀ : Spectrice_t) (InSeq : ℕ → ℕ → ℝ) (b : ℕ) :
    (stateAfter S₀ InSeq b).nHops = S₀.nHops := by
  induction b with
  | zero => rfl
  | succ b ih => exact ih

/-- The window survives iterated `Spectrice_Process` calls. -/
theorem stateAfter_Window (S₀ : Spectrice_t) (InSeq : ℕ → ℕ → ℝ) (b : ℕ) :
    (stateAfter S₀ InSeq b).Window = S₀.Window := by
  induction b with
  | zero => rfl
  | succ b ih => exact ih

/-- The freeze factor survives iterated `Spectrice_Process` calls. -/
theorem stateAfter_FreezeFactor (S₀ : Spectrice_t) (InSeq : ℕ → ℕ → ℝ) (b : ℕ) :
    (stateAfter S₀ InSeq b).FreezeFactor = S₀.FreezeFactor := by
  induction b with
  | zero => rfl
  | succ b ih => exact ih

/-- The snapshot flag survives iterated `Spectrice_Process` calls. -/
theorem stateAfter_HaveSnapshot (S₀ : Spectrice_t) (InSeq : ℕ → ℕ → ℝ) (b : ℕ) :
    (stateAfter S₀ InSeq b).HaveSnapshot = S₀.HaveSnapshot := by
  induction b with
  | zero => rfl
  | succ b ih => exact ih

/-- The forward-lap invariant only depends on the sizes of the state. -/
theorem FwdLapInv_iff (S S' : Spectrice_t) (hN : S.BlockSize = S'.BlockSize)
    (hHn : S.nHops = S'.nHops) (x : ℕ → ℝ) (g : ℕ) (ch : SpectriceChan) :
    FwdLapInv S x g ch ↔ FwdLapInv S' x g ch := by
  unfold FwdLapInv
  rw [hN, hHn]

/-- The inverse-lap invariant only depends on sizes and window. -/
theorem InvLapInv_iff (S S' : Spectrice_t) (hN : S.BlockSize = S'.BlockSize)
    (hHn : S.nHops = S'.nHops) (hW : S.Window = S'.Window) (x : ℕ → ℝ) (g : ℕ)
    (ch : SpectriceChan) : InvLapInv S x g ch ↔ InvLapInv S' x g ch := by
  unfold InvLapInv
  rw [hN, hHn, hW]

/-- Inner induction: the invariants advance hop by hop through one block, and
the input appended during hop `h` of block `b` is stream-consistent. -/
theorem blockHops_clean (S : Spectrice_t) (inChan : ℕ → ℝ) (ch : SpectriceChan)
    (x : ℕ → ℝ) (b : ℕ)
    (hF : S.FreezeFactor = 0) (hNe : S.BlockSize % 2 = 0) (hM : 0 < S.BlockSize / 2)
    (hH : 0 < S.nHops) (hQH : S.nHops * (S.BlockSize / S.nHops) = S.BlockSize)
    (hin : ∀ t < S.BlockSize, inChan t = x (b * S.BlockSize + t))
    (hphase : PhaseInv ch) (hfwd : FwdLapInv S x (b * S.nHops) ch)
    (hinv : InvLapInv S x (b * S.nHops) ch) :
    ∀ h, h ≤ S.nHops →
      PhaseInv (blockHops S inChan ch h)
        ∧ FwdLapInv S x (b * S.nHops + h) (blockHops S inChan ch h)
        ∧ InvLapInv S x (b * S.nHops + h) (blockHops S inChan ch h) := by
  have hQ0 : 0 < S.BlockSize / S.nHops := by
    rcases Nat.eq_zero_or_pos (S.BlockSize / S.nHops) with h0 | h0
    · rw [h0, Nat.mul_zero] at hQH
      omega
    · exact h0
  intro h
  induction h with
  | zero =>
    intro _
    exact ⟨hphase, by rw [Nat.add_zero]; exact hfwd, by rw [Nat.add_zero]; exact hinv⟩
  | succ h ih =>
    intro hh
    obtain ⟨ihp, ihf, ihi⟩ := ih (by omega)
    have hhop : h < S.nHops := by omega
    have hinhop : ∀ t < S.BlockSize / S.nHops,
        inChan (h * (S.BlockSize / S.nHops) + t)
          = x ((b * S.nHops + h) * (S.BlockSize / S.nHops) + t) := by
      intro t ht
      have hlt : h * (S.BlockSize / S.nHops) + t < S.BlockSize := by
        have h1 : h * (S.BlockSize / S.nHops)
            ≤ (S.nHops - 1) * (S.BlockSize / S.nHops) :=
          Nat.mul_le_mul_right _ (by omega)
        have h2 : (S.nHops - 1) * (S.BlockSize / S.nHops) + S.BlockSize / S.nHops
            = S.nHops * (S.BlockSize / S.nHops) := by
          have h3 : S.nHops - 1 + 1 = S.nHops := by omega
          calc (S.nHops - 1) * (S.BlockSize / S.nHops) + S.BlockSize / S.nHops
              = (S.nHops - 1 + 1) * (S.BlockSize / S.nHops) := by ring
            _ = S.nHops * (S.BlockSize / S.nHops) := by rw [h3]
        omega
      rw [hin _ hlt]
      congr 1
      calc b * S.BlockSize + (h * (S.BlockSize / S.nHops) + t)
          = b * (S.nHops * (S.BlockSize / S.nHops))
            + (h * (S.BlockSize / S.nHops) + t) := by rw [hQH]
        _ = (b * S.nHops + h) * (S.BlockSize / S.nHops) + t := by ring
    have hstep : blockHops S inChan ch (h + 1) = hopStep S h inChan (blockHops S inChan ch h) :=
      rfl
    refine ⟨?_, ?_, ?_⟩
    · rw [hstep]
      exact hopStep_phaseInv S h inChan _ hF ihp
    · rw [hstep, show b * S.nHops + (h + 1) = (b * S.nHops + h) + 1 by ring]
      exact hopStep_fwdLap S h inChan _ x (b * S.nHops + h) hH hQH ihf hinhop
    · rw [hstep, show b * S.nHops + (h + 1) = (b * S.nHops + h) + 1 by ring]
      exact hopStep_invLap S h inChan _ x (b * S.nHops + h) hF hNe hM hH hQH ihp ihf ihi

/-- Output of one clean `Spectrice_Process` call on one channel: frame `j` of
block `b` is the delayed stream at global position `b*N + j`. -/
theorem chanBlockOut_clean (S : Spectrice_t) (inChan : ℕ → ℝ) (ch : SpectriceChan)
    (x : ℕ → ℝ) (b : ℕ)
    (hF : S.FreezeFactor = 0) (hNe : S.BlockSize % 2 = 0) (hM : 0 < S.BlockSize / 2)
    (hH : 0 < S.nHops) (hQH : S.nHops * (S.BlockSize / S.nHops) = S.BlockSize)
    (hcola : ∀ p < S.BlockSize / S.nHops,
      ∑ h ∈ Finset.range S.nHops,
        wfull S.Window S.BlockSize (p + h * (S.BlockSize / S.nHops)) ^ 2
          = 2 / (S.BlockSize : ℝ))
    (hin : ∀ t < S.BlockSize, inChan t = x (b * S.BlockSize + t))
    (hphase : PhaseInv ch) (hfwd : FwdLapInv S x (b * S.nHops) ch)
    (hinv : InvLapInv S x (b * S.nHops) ch)
    (j : ℕ) (hj : j < S.BlockSize) :
    chanBlockOut S inChan ch j = delayedStream S.BlockSize x (b * S.BlockSize + j) := by
  have hQ0 : 0 < S.BlockSize / S.nHops := by
    rcases Nat.eq_zero_or_pos (S.BlockSize / S.nHops) with h0 | h0
    · rw [h0, Nat.mul_zero] at hQH
      omega
    · exact h0
  have hdivlt : j / (S.BlockSize / S.nHops) < S.nHops := by
    rw [Nat.div_lt_iff_lt_mul hQ0, hQH]
    exact hj
  obtain ⟨hp, hf, hi⟩ := blockHops_clean S inChan ch x b hF hNe hM hH hQH hin hphase hfwd hinv
    (j / (S.BlockSize / S.nHops)) (le_of_lt hdivlt)
  unfold chanBlockOut
  rw [hopEmit_clean S _ _ x (b * S.nHops + j / (S.BlockSize / S.nHops)) hF hNe hM hH hQH
    hp hf hi hcola (j % (S.BlockSize / S.nHops)) (Nat.mod_lt _ hQ0)]
  congr 1
  have hdm := Nat.div_add_mod j (S.BlockSize / S.nHops)
  calc (b * S.nHops + j / (S.BlockSize / S.nHops)) * (S.BlockSize / S.nHops)
        + j % (S.BlockSize / S.nHops)
      = b * (S.nHops * (S.BlockSize / S.nHops))
        + (S.BlockSize / S.nHops * (j / (S.BlockSize / S.nHops))
          + j % (S.BlockSize / S.nHops)) := by ring
    _ = b * S.BlockSize + j := by rw [hQH, hdm]

/-- Outer induction: the channel invariants hold after every number of
`Spectrice_Process` calls, starting from zeroed laps and phase buffers. -/
theorem stateAfter_clean (S₀ : Spectrice_t) (InSeq : ℕ → ℕ → ℝ) (c : ℕ)
    (hF : S₀.FreezeFactor = 0) (hNe : S₀.BlockSize % 2 = 0) (hM : 0 < S₀.BlockSize / 2)
    (hH : 0 < S₀.nHops) (hQH : S₀.nHops * (S₀.BlockSize / S₀.nHops) = S₀.BlockSize)
    (hc : c < S₀.nChan)
    (hphase0 : PhaseInv (S₀.chans c))
    (hfwd0 : FwdLapInv S₀ (chanStream S₀.BlockSize S₀.nChan c InSeq) 0 (S₀.chans c))
    (hinv0 : InvLapInv S₀ (chanStream S₀.BlockSize S₀.nChan c InSeq) 0 (S₀.chans c)) :
    ∀ b, PhaseInv ((stateAfter S₀ InSeq b).chans c)
      ∧ FwdLapInv S₀ (chanStream S₀.BlockSize S₀.nChan c InSeq) (b * S₀.nHops)
          ((stateAfter S₀ InSeq b).chans c)
      ∧ InvLapInv S₀ (chanStream S₀.BlockSize S₀.nChan c InSeq) (b * S₀.nHops)
          ((stateAfter S₀ InSeq b).chans c) := by
  intro b
  induction b with
  | zero =>
    exact ⟨hphase0, by rw [Nat.zero_mul]; exact hfwd0, by rw [Nat.zero_mul]; exact hinv0⟩
  | succ b ih =>
    obtain ⟨ihp, ihf, ihi⟩ := ih
    set Sb := stateAfter S₀ InSeq b with hSb
    have hnChan : Sb.nChan = S₀.nChan := stateAfter_nChan S₀ InSeq b
    have hBS : Sb.BlockSize = S₀.BlockSize := stateAfter_BlockSize S₀ InSeq b
    have hnH : Sb.nHops = S₀.nHops := stateAfter_nHops S₀ InSeq b
    have hW : Sb.Window = S₀.Window := stateAfter_Window S₀ InSeq b
    have hFF : Sb.FreezeFactor = S₀.FreezeFactor := stateAfter_FreezeFactor S₀ InSeq b
    have hchans : (stateAfter S₀ InSeq (b + 1)).chans c
        = processChan Sb (chanInput Sb.nChan c (InSeq b)) (Sb.chans c) := by
      show (Spectrice_Process Sb (InSeq b)).1.chans c = _
      simp only [Spectrice_Process]
      rw [if_pos (by rw [hnChan]; exact hc)]
    have hin : ∀ t < Sb.BlockSize,
        chanInput Sb.nChan c (InSeq b) t
          = chanStream S₀.BlockSize S₀.nChan c InSeq (b * Sb.BlockSize + t) := by
      intro t ht
      unfold chanInput chanStream
      rw [hnChan, hBS]
      rw [hBS] at ht
      have hdiv : (b * S₀.BlockSize + t) / S₀.BlockSize = b := by
        rw [Nat.add_comm, Nat.add_mul_div_right _ _ (by omega : 0 < S₀.BlockSize),
          Nat.div_eq_of_lt ht, Nat.zero_add]
      have hmod : (b * S₀.BlockSize + t) % S₀.BlockSize = t := by
        rw [Nat.add_comm, Nat.add_mul_mod_self_right, Nat.mod_eq_of_lt ht]
      rw [hdiv, hmod]
    have hproc : processChan Sb (chanInput Sb.nChan c (InSeq b)) (Sb.chans c)
        = blockHops Sb (chanInput Sb.nChan c (InSeq b)) (Sb.chans c) Sb.nHops := rfl
    obtain ⟨hp, hf, hi⟩ := blockHops_clean Sb (chanInput Sb.nChan c (InSeq b)) (Sb.chans c)
      (chanStream S₀.BlockSize S₀.nChan c InSeq) b
      (by rw [hFF]; exact hF) (by rw [hBS]; exact hNe) (by rw [hBS]; exact hM)
      (by rw [hnH]; exact hH) (by rw [hBS, hnH]; exact hQH)
      hin ihp
      (by rw [FwdLapInv_iff Sb S₀ hBS hnH, hnH]; exact ihf)
      (by rw [InvLapInv_iff Sb S₀ hBS hnH hW, hnH]; exact ihi)
      Sb.nHops (le_refl _)
    rw [hchans, hproc]
    refine ⟨hp, ?_, ?_⟩
    · rw [← FwdLapInv_iff Sb S₀ hBS hnH]
      rw [show (b + 1) * S₀.nHops = b * Sb.nHops + Sb.nHops by rw [hnH]; ring]
      exact hf
    · rw [← InvLapInv_iff Sb S₀ hBS hnH hW]
      rw [show (b + 1) * S₀.nHops = b * Sb.nHops + Sb.nHops by rw [hnH]; ring]
      exact hi

/-- Output of the `(b+1)`-st clean call: frame `j` of channel `c` is the
delayed stream at position `b*N + j`. -/
theorem processOut_clean (S₀ : Spectrice_t) (InSeq : ℕ → ℕ → ℝ) (c : ℕ)
    (hF : S₀.FreezeFactor = 0) (hNe : S₀.BlockSize % 2 = 0) (hM : 0 < S₀.BlockSize / 2)
    (hH : 0 < S₀.nHops) (hQH : S₀.nHops * (S₀.BlockSize / S₀.nHops) = S₀.BlockSize)
    (hcola : ∀ p < S₀.BlockSize / S₀.nHops,
      ∑ h ∈ Finset.range S₀.nHops,
        wfull S₀.Window S₀.BlockSize (p + h * (S₀.BlockSize / S₀.nHops)) ^ 2
          = 2 / (S₀.BlockSize : ℝ))
    (hc : c < S₀.nChan)
    (hphase0 : PhaseInv (S₀.chans c))
    (hfwd0 : FwdLapInv S₀ (chanStream S₀.BlockSize S₀.nChan c InSeq) 0 (S₀.chans c))
    (hinv0 : InvLapInv S₀ (chanStream S₀.BlockSize S₀.nChan c InSeq) 0 (S₀.chans c))
    (b j : ℕ) (hj : j < S₀.BlockSize) :
    (Spectrice_Process (stateAfter S₀ InSeq b) (InSeq b)).2 (j * S₀.nChan + c)
      = delayedStream S₀.BlockSize (chanStream S₀.BlockSize S₀.nChan c InSeq)
          (b * S₀.BlockSize + j) := by
  obtain ⟨ihp, ihf, ihi⟩ := stateAfter_clean S₀ InSeq c hF hNe hM hH hQH hc
    hphase0 hfwd0 hinv0 b
  set Sb := stateAfter S₀ InSeq b with hSb
  have hnChan : Sb.nChan = S₀.nChan := stateAfter_nChan S₀ InSeq b
  have hBS : Sb.BlockSize = S₀.BlockSize := stateAfter_BlockSize S₀ InSeq b
  have hnH : Sb.nHops = S₀.nHops := stateAfter_nHops S₀ InSeq b
  have hW : Sb.Window = S₀.Window := stateAfter_Window S₀ InSeq b
  have hFF : Sb.FreezeFactor = S₀.FreezeFactor := stateAfter_FreezeFactor S₀ InSeq b
  have hn0 : 0 < S₀.nChan := by omega
  have hmod : (j * S₀.nChan + c) % S₀.nChan = c := by
    rw [Nat.add_comm, Nat.add_mul_mod_self_right, Nat.mod_eq_of_lt hc]
  have hdiv : (j * S₀.nChan + c) / S₀.nChan = j := by
    rw [Nat.add_comm, Nat.add_mul_div_right _ _ hn0, Nat.div_eq_of_lt hc, Nat.zero_add]
  have hin : ∀ t < Sb.BlockSize,
      chanInput Sb.nChan c (InSeq b) t
        = chanStream S₀.BlockSize S₀.nChan c InSeq (b * Sb.BlockSize + t) := by
    intro t ht
    unfold chanInput chanStream
    rw [hnChan, hBS]
    rw [hBS] at ht
    have hdiv2 : (b * S₀.BlockSize + t) / S₀.BlockSize = b := by
      rw [Nat.add_comm, Nat.add_mul_div_right _ _ (by omega : 0 < S₀.BlockSize),
        Nat.div_eq_of_lt ht, Nat.zero_add]
    have hmod2 : (b * S₀.BlockSize + t) % S₀.BlockSize = t := by
      rw [Nat.add_comm, Nat.add_mul_mod_self_right, Nat.mod_eq_of_lt ht]
    rw [hdiv2, hmod2]
  show (if (j * S₀.nChan + c) / Sb.nChan < Sb.BlockSize then
      chanBlockOut Sb (chanInput Sb.nChan ((j * S₀.nChan + c) % Sb.nChan) (InSeq b))
        (Sb.chans ((j * S₀.nChan + c) % Sb.nChan)) ((j * S₀.nChan + c) / Sb.nChan)
    else 0) = _
  rw [hnChan, hmod, hdiv, if_pos (by rw [hBS]; exact hj)]
  have hout := chanBlockOut_clean Sb (chanInput Sb.nChan c (InSeq b)) (Sb.chans c)
    (chanStream S₀.BlockSize S₀.nChan c InSeq) b
    (by rw [hFF]; exact hF) (by rw [hBS]; exact hNe) (by rw [hBS]; exact hM)
    (by rw [hnH]; exact hH) (by rw [hBS, hnH]; exact hQH)
    (by rw [hBS, hnH, hW]; exact hcola)
    hin ihp
    (by rw [FwdLapInv_iff Sb S₀ hBS hnH, hnH]; exact ihf)
    (by rw [InvLapInv_iff Sb S₀ hBS hnH hW, hnH]; exact ihi)
    j (by rw [hBS]; exact hj)
  rw [hnChan] at hout
  rw [hout, hBS]

/-- Eliminating a successful `Spectrice_Init` without priming: the parameter
checks passed, the window was initialized, configuration fields are copied,
and the laps and phase buffers are all zero. -/
theorem Spectrice_Init_some_elim (S : Spectrice_t) (wt : ℕ) (snap : Option (ℕ → ℝ))
    (alloc : Bool) (S₀ : Spectrice_t)
    (h : Spectrice_Init S wt none snap alloc = some S₀) :
    (8 ≤ S.BlockSize ∧ S.BlockSize ≤ 65536 ∧ 2 ≤ S.nHops ∧ S.nHops ≤ S.BlockSize
      ∧ (∃ k, S.BlockSize = 2 ^ k) ∧ (∃ k, S.nHops = 2 ^ k) ∧ 1 ≤ S.nChan)
    ∧ InitXformWindow S.BlockSize S.nHops wt = some S₀.Window
    ∧ S₀.nChan = S.nChan ∧ S₀.BlockSize = S.BlockSize ∧ S₀.nHops = S.nHops
    ∧ S₀.FreezeFactor = S.FreezeFactor ∧ S₀.HaveSnapshot = snap.isSome
    ∧ ∀ c, (S₀.chans c).BfFwdLap = (fun _ => 0) ∧ (S₀.chans c).BfInvLap = (fun _ => 0)
        ∧ (S₀.chans c).BfArg = (fun _ => 0) ∧ (S₀.chans c).BfArgOld = (fun _ => 0)
        ∧ (S₀.chans c).BfArgStep = (fun _ => 0) := by
  unfold Spectrice_Init at h
  split_ifs at h with h1 h2 h3 h4 h5 h6
  rcases hxw : InitXformWindow S.BlockSize S.nHops wt with _ | W
  · rw [hxw] at h
    exact absurd h (by simp)
  · rw [hxw] at h
    simp only [] at h
    obtain rfl := (Option.some.inj h).symm
    have hp2N : ∃ k, S.BlockSize = 2 ^ k := by
      rw [← SPECTRICE_IS_POWEROF_2_iff]
      by_contra hb
      exact h4 (Or.inl hb)
    have hp2H : ∃ k, S.nHops = 2 ^ k := by
      rw [← SPECTRICE_IS_POWEROF_2_iff]
      by_contra hb
      exact h4 (Or.inr hb)
    refine ⟨⟨by omega, by omega, by omega, by omega, hp2N, hp2H, by omega⟩,
      rfl, rfl, rfl, rfl, rfl, rfl, fun c => ⟨rfl, rfl, rfl, rfl, rfl⟩⟩

/-- A power of two that is at least 8 is even. -/
theorem pow2_ge8_even (N : ℕ) (h8 : 8 ≤ N) (hp : ∃ k, N = 2 ^ k) : N % 2 = 0 := by
  obtain ⟨k, rfl⟩ := hp
  match k with
  | 0 => omega
  | k + 1 => rw [pow_succ, Nat.mul_mod_left]

/-- Among powers of two, the smaller divides the larger exactly:
`H * (N / H) = N`. -/
theorem pow2_mul_div_cancel (N H : ℕ) (hpN : ∃ k, N = 2 ^ k) (hpH : ∃ k, H = 2 ^ k)
    (hle : H ≤ N) : H * (N / H) = N := by
  obtain ⟨a, rfl⟩ := hpN
  obtain ⟨b, rfl⟩ := hpH
  have hba : b ≤ a := (Nat.pow_le_pow_iff_right (by norm_num)).mp hle
  exact Nat.mul_div_cancel' (pow_dvd_pow 2 hba)

/-- Support: with `FreezeFactor = 0` and `FreezeStart ≠ FreezePoint` (the
domain where the real-division `mixRatio` embedding is faithful to the C
float code — see `mixRatio`), block-by-block processing from any state
produced by `Spectrice_Init` (any window, any snapshot, any freeze flags)
outputs exactly the input delayed by one block of `BlockSize` samples, per
channel, per sample: call `b`'s frame `j` of channel `c` is zero for the
first call and call `b-1`'s frame `j` of channel `c` afterwards.  At
`FreezeStart = FreezePoint` the program instead produces NaN (see
`C1_freeze_corner_nan`). -/
theorem process_delay_by_N_off_corner (S : Spectrice_t) (wt : ℕ) (snap : Option (ℕ → ℝ))
    (alloc : Bool) (S₀ : Spectrice_t) (InSeq : ℕ → ℕ → ℝ) (c j b : ℕ)
    (hinit : Spectrice_Init S wt none snap alloc = some S₀)
    (hF : S.FreezeFactor = 0) ( _hBE : S.FreezeStart ≠ S.FreezePoint)
    (hc : c < S.nChan) (hj : j < S.BlockSize) :
    (Spectrice_Process (stateAfter S₀ InSeq b) (InSeq b)).2 (j * S.nChan + c)
      = if b = 0 then 0 else InSeq (b - 1) (j * S.nChan + c) := by
  obtain ⟨⟨hN8, hN65536, hH2, hHN, hpN, hpH, hnC⟩, hW, hnChan, hBS, hnH, hFF, hHS, hch⟩ :=
    Spectrice_Init_some_elim S wt snap alloc S₀ hinit
  obtain ⟨hfwd, hinv, harg, hargold, hargstep⟩ := hch c
  have hNe : S.BlockSize % 2 = 0 := pow2_ge8_even S.BlockSize hN8 hpN
  have hQH : S.nHops * (S.BlockSize / S.nHops) = S.BlockSize :=
    pow2_mul_div_cancel S.BlockSize S.nHops hpN hpH hHN
  have hQ0 : 0 < S.BlockSize / S.nHops := Nat.div_pos hHN (by omega)
  have hcola : ∀ p < S₀.BlockSize / S₀.nHops,
      ∑ h ∈ Finset.range S₀.nHops,
        wfull S₀.Window S₀.BlockSize (p + h * (S₀.BlockSize / S₀.nHops)) ^ 2
          = 2 / (S₀.BlockSize : ℝ) := by
    rw [hBS, hnH]
    intro p hp
    exact window_cola wt S.BlockSize S.nHops (S.BlockSize / S.nHops) S₀.Window hW
      hN8 hNe hQH hQ0 p hp
  have hout := processOut_clean S₀ InSeq c
    (by rw [hFF]; exact hF) (by rw [hBS]; exact hNe) (by rw [hBS]; omega)
    (by rw [hnH]; omega) (by rw [hnH, hBS]; exact hQH) hcola
    (by rw [hnChan]; exact hc)
    (by intro n; rw [harg, hargold]; exact ⟨0, by norm_num⟩)
    (by intro i hi
        rw [hfwd]
        unfold delayedStream
        rw [if_pos (by omega)])
    (by intro i hi
        rw [hinv, Finset.range_zero, Finset.sum_empty])
    b j (by rw [hBS]; exact hj)
  rw [hnChan, hBS] at hout
  rw [hout]
  unfold delayedStream chanStream
  rcases b with _ | b'
  · rw [if_pos (by omega : 0 * S.BlockSize + j < S.BlockSize)]
    rfl
  · rw [if_neg (by
      have : S.BlockSize ≤ (b' + 1) * S.BlockSize := Nat.le_mul_of_pos_left _ (by omega)
      omega)]
    have hidx : (b' + 1) * S.BlockSize + j - S.BlockSize = b' * S.BlockSize + j := by
      have : (b' + 1) * S.BlockSize = b' * S.BlockSize + S.BlockSize := by ring
      omega
    rw [hidx]
    have hdiv : (b' * S.BlockSize + j) / S.BlockSize = b' := by
      rw [Nat.add_comm, Nat.add_mul_div_right _ _ (by omega : 0 < S.BlockSize),
        Nat.div_eq_of_lt hj, Nat.zero_add]
    have hmod : (b' * S.BlockSize + j) % S.BlockSize = j := by
      rw [Nat.add_comm, Nat.add_mul_mod_self_right, Nat.mod_eq_of_lt hj]
    rw [hdiv, hmod]
    rfl

/-- Instantiation of `process_delay_by_N_off_corner` at a concrete mono
configuration (`BlockSize = 16`, `nHops = 2`, sine window,
`FreezeFactor = 0`, ramp `16 → 32`), the constant-per-block input stream,
call `b = 1`, frame `j = 3`, channel `c = 0`. -/
theorem process_delay_by_N_off_corner_example :
    ∃ S₀ : Spectrice_t,
      Spectrice_Init
          { nChan := 1, BlockSize := 16, nHops := 2, FreezeStart := 16, FreezePoint := 32,
            FreezeFactor := 0, FreezeAmp := false, FreezePhase := false,
            HaveSnapshot := false, BlockIdx := 0, Window := fun _ => 0,
            chans := fun _ =>
              ⟨fun _ => 0, fun _ => 0, fun _ => 0, fun _ => 0, fun _ => 0, fun _ => 0⟩ }
          0 none none true = some S₀
      ∧ (Spectrice_Process (stateAfter S₀ (fun b _ => (b : ℝ)) 1)
              ((fun (b : ℕ) (_ : ℕ) => (b : ℝ)) 1)).2 (3 * 1 + 0)
          = if (1 : ℕ) = 0 then 0
            else (fun (b : ℕ) (_ : ℕ) => (b : ℝ)) (1 - 1) (3 * 1 + 0) := by
  have hok : (Spectrice_Init
      { nChan := 1, BlockSize := 16, nHops := 2, FreezeStart := 16, FreezePoint := 32,
        FreezeFactor := 0, FreezeAmp := false, FreezePhase := false,
        HaveSnapshot := false, BlockIdx := 0, Window := fun _ => 0,
        chans := fun _ =>
          ⟨fun _ => 0, fun _ => 0, fun _ => 0, fun _ => 0, fun _ => 0, fun _ => 0⟩ }
      0 none none true).isSome := by
    rw [Spectrice_Init_isSome_eq]
    decide
  obtain ⟨S₀, hS₀⟩ := Option.isSome_iff_exists.mp hok
  refine ⟨S₀, hS₀, ?_⟩
  have hmain := process_delay_by_N_off_corner _ 0 none true S₀ (fun b _ => (b : ℝ)) 0 3 1
    hS₀ rfl (by decide) (by decide) (by decide)
  exact hmain

/-- C1 (refuted by IEEE-754 specials): a configuration the spec's §3 ranges
allow — `FreezeStart = FreezePoint = 32` (both `≥ N`), `FreezeFactor = 0`,
`FreezeAmp` on — is accepted by `Spectrice_Init`, yet on the first hop
(`Idx = 0 < FreezePoint`) the float mix-ratio computation of
`Spectrice_Process` divides by `FreezePoint − FreezeStart = 0`, giving
`-inf`, multiplies by `FreezeFactor = 0`, giving NaN, which the clamp passes
through (`mixRatioC` = NaN), so the magnitude mix `m·BfAbs + (1−m)·Abs` and
hence the output become NaN — not the input delayed by `N`.  The
real-division embedding `mixRatio` collapses this path to `0`, which is what
the delay property needs; the two disagree exactly here. -/
theorem C1_freeze_corner_nan :
    (Spectrice_Init
        { nChan := 1, BlockSize := 16, nHops := 2, FreezeStart := 32, FreezePoint := 32,
          FreezeFactor := 0, FreezeAmp := true, FreezePhase := false,
          HaveSnapshot := false, BlockIdx := 0, Window := fun _ => 0,
          chans := fun _ =>
            ⟨fun _ => 0, fun _ => 0, fun _ => 0, fun _ => 0, fun _ => 0, fun _ => 0⟩ }
        0 none none true).isSome = true
      ∧ mixRatioC
          { nChan := 1, BlockSize := 16, nHops := 2, FreezeStart := 32, FreezePoint := 32,
            FreezeFactor := 0, FreezeAmp := true, FreezePhase := false,
            HaveSnapshot := false, BlockIdx := 0, Window := fun _ => 0,
            chans := fun _ =>
              ⟨fun _ => 0, fun _ => 0, fun _ => 0, fun _ => 0, fun _ => 0, fun _ => 0⟩ }
          0 = FloatR.nan
      ∧ mixRatio
          { nChan := 1, BlockSize := 16, nHops := 2, FreezeStart := 32, FreezePoint := 32,
            FreezeFactor := 0, FreezeAmp := true, FreezePhase := false,
            HaveSnapshot := false, BlockIdx := 0, Window := fun _ => 0,
            chans := fun _ =>
              ⟨fun _ => 0, fun _ => 0, fun _ => 0, fun _ => 0, fun _ => 0, fun _ => 0⟩ }
          0 = 0 := by
  refine ⟨?_, ?_, ?_⟩
  · rw [Spectrice_Init_isSome_eq]
    decide
  · show fclamp (fmulF
        (if (((0 : ℕ) : ℝ) + ((0 : ℕ) : ℝ) / ((2 : ℕ) : ℝ)) * ((16 : ℕ) : ℝ)
            ≥ (((32 : ℤ) : ℝ)) then FloatR.fin 1
          else fdiv
            ((((0 : ℕ) : ℝ) + ((0 : ℕ) : ℝ) / ((2 : ℕ) : ℝ)) * ((16 : ℕ) : ℝ)
              - ((32 : ℤ) : ℝ))
            (((32 : ℤ) : ℝ) - ((32 : ℤ) : ℝ))) 0) = FloatR.nan
    rw [if_neg (by norm_num)]
    rw [show fdiv ((((0 : ℕ) : ℝ) + ((0 : ℕ) : ℝ) / ((2 : ℕ) : ℝ)) * ((16 : ℕ) : ℝ)
          - ((32 : ℤ) : ℝ)) (((32 : ℤ) : ℝ) - ((32 : ℤ) : ℝ)) = FloatR.ninf by
      unfold fdiv
      rw [if_pos (by norm_num), if_neg (by norm_num), if_neg (by norm_num)]]
    show fclamp (if (0 : ℝ) = 0 then FloatR.nan else _) = FloatR.nan
    rw [if_pos rfl]
    rfl
  · exact mixRatio_zero _ 0 rfl

/-- C2 (amended): for every power-of-two `N` with `16 ≤ N ≤ 65536` and every
real input, the inverse centered FFT applied to the forward centered FFT
returns `N/2` times the input — the round trip is the identity only up to the
residual scale factor `N/2`, not exactly. -/
theorem C2_fft_roundtrip_scaled (N k : ℕ) (hk : N = 2 ^ k) (h16 : 16 ≤ N)
    (h65536 : N ≤ 65536) (x : ℕ → ℝ) (i : ℕ) (hi : i < N) :
    Fourier_iFFTReCenter (N / 2) (Fourier_FFTReCenter (N / 2) x) i
      = ((N / 2 : ℕ) : ℝ) * x i := by
  have hNe : N % 2 = 0 := pow2_ge8_even N (by omega) ⟨k, hk⟩
  exact fft_roundtrip (N / 2) (by omega) x i (by omega)

/-- Witness for C2 (amended): `N = 16`, the all-ones input, entry `0`. -/
theorem C2_fft_roundtrip_scaled_witness :
    Fourier_iFFTReCenter (16 / 2) (Fourier_FFTReCenter (16 / 2) (fun _ => 1)) 0
      = ((16 / 2 : ℕ) : ℝ) * (fun _ : ℕ => (1 : ℝ)) 0 :=
  C2_fft_roundtrip_scaled 16 4 (by norm_num) (by norm_num) (by norm_num) (fun _ => 1) 0
    (by norm_num)

/-- Counterexample to C2 as stated: at `N = 16` with the all-ones input, the
round trip returns `8` at entry `0`, not `1` — the claimed "no residual scale
factor" fails (the residual factor is `N/2`). -/
theorem C2_counterexample :
    Fourier_iFFTReCenter 8 (Fourier_FFTReCenter 8 (fun _ => 1)) 0 = 8
      ∧ (8 : ℝ) ≠ 1 := by
  constructor
  · have h := fft_roundtrip 8 (by norm_num) (fun _ => 1) 0 (by norm_num)
    simpa using h
  · norm_num

/-- C3: every window produced by a successful `InitXformWindow` — any window
type it accepts and any hop count meeting that window's minimum — satisfies
the normalization identity `(Σ W[n]²) · nHops = 1` exactly, for every
power-of-two block size in range. -/
theorem C3_window_normalization (wtype N H k : ℕ) (W : ℕ → ℝ)
    (hN : N = 2 ^ k) (h8 : 8 ≤ N) ( _h65536 : N ≤ 65536)
    (hW : InitXformWindow N H wtype = some W) :
    (∑ n ∈ Finset.range (N / 2), W n ^ 2) * H = 1 :=
  window_normalization_core wtype N H W hW h8 (pow2_ge8_even N h8 ⟨k, hN⟩)

/-- Witness for C3: the sine window at `N = 8`, `nHops = 2`. -/
theorem C3_window_normalization_witness :
    ∃ W, InitXformWindow 8 2 0 = some W
      ∧ (∑ n ∈ Finset.range (8 / 2), W n ^ 2) * (2 : ℕ) = 1 := by
  rcases hW : InitXformWindow 8 2 0 with _ | W
  · rw [InitXformWindow_none_iff] at hW
    norm_num [windowMinHops] at hW
  · exact ⟨W, rfl,
      C3_window_normalization 0 8 2 3 W (by norm_num) (by norm_num) (by norm_num) hW⟩

/-- C6: the per-hop mix ratio is `clamp(r·FreezeFactor, 0, 1)` with
`r = (Idx−FreezeStart)/(FreezePoint−FreezeStart)`, `r = 1` once
`Idx ≥ FreezePoint`, and `Idx = (BlockIdx + h/nHops)·BlockSize`; and for
`FreezeFactor ≥ 0`, `FreezeStart < FreezePoint` it is monotonically
non-decreasing in the hop index. -/
theorem C6_mix_ratio (S : Spectrice_t) (h1 h2 : ℕ) (hF : 0 ≤ S.FreezeFactor)
    (hBE : S.FreezeStart < S.FreezePoint) (hH : 0 < S.nHops) (hh : h1 ≤ h2) :
    mixRatio S h1
        = mixRatioSpec S.FreezeFactor (S.FreezeStart : ℝ) (S.FreezePoint : ℝ)
            (((S.BlockIdx : ℝ) + (h1 : ℝ) / (S.nHops : ℝ)) * (S.BlockSize : ℝ))
      ∧ mixRatio S h1 ≤ mixRatio S h2 :=
  ⟨mixRatio_eq_spec S h1, mixRatio_mono S hF hBE hH h1 h2 hh⟩

/-- Witness for C6: a concrete configuration with `FreezeFactor = 1/2`,
ramp from sample 16 to sample 32, hops `0 ≤ 1`. -/
theorem C6_mix_ratio_witness :
    mixRatio
          { nChan := 1, BlockSize := 16, nHops := 2, FreezeStart := 16, FreezePoint := 32,
            FreezeFactor := 1 / 2, FreezeAmp := false, FreezePhase := false,
            HaveSnapshot := false, BlockIdx := 0, Window := fun _ => 0,
            chans := fun _ =>
              ⟨fun _ => 0, fun _ => 0, fun _ => 0, fun _ => 0, fun _ => 0, fun _ => 0⟩ } 0
        = mixRatioSpec (1 / 2) ((16 : ℤ) : ℝ) ((32 : ℤ) : ℝ)
            (((0 : ℕ) + (0 : ℕ) / ((2 : ℕ) : ℝ)) * ((16 : ℕ) : ℝ))
      ∧ mixRatio
          { nChan := 1, BlockSize := 16, nHops := 2, FreezeStart := 16, FreezePoint := 32,
            FreezeFactor := 1 / 2, FreezeAmp := false, FreezePhase := false,
            HaveSnapshot := false, BlockIdx := 0, Window := fun _ => 0,
            chans := fun _ =>
              ⟨fun _ => 0, fun _ => 0, fun _ => 0, fun _ => 0, fun _ => 0, fun _ => 0⟩ } 0
        ≤ mixRatio
          { nChan := 1, BlockSize := 16, nHops := 2, FreezeStart := 16, FreezePoint := 32,
            FreezeFactor := 1 / 2, FreezeAmp := false, FreezePhase := false,
            HaveSnapshot := false, BlockIdx := 0, Window := fun _ => 0,
            chans := fun _ =>
              ⟨fun _ => 0, fun _ => 0, fun _ => 0, fun _ => 0, fun _ => 0, fun _ => 0⟩ } 1 :=
  C6_mix_ratio _ 0 1 (by norm_num) (by norm_num) (by norm_num) (by norm_num)

/-- C10: a `Spectrice_Process` call with `Output = NULL` produces exactly the
same post-state as one with a non-null output buffer on the same state and
input; the output argument only selects whether the output loop runs. -/
theorem C10_null_output_same_state (S : Spectrice_t) (Input : ℕ → ℝ) :
    Spectrice_ProcessNull S Input = (Spectrice_Process S Input).1 := rfl

/-- C7 (refuted by the window-rejection path): with valid sizes but an
unknown window type (`WindowType = 5`), `Spectrice_Init` frees the buffer
via `Spectrice_Destroy` and returns failure while `BufferData` still holds
the freed pointer; the caller's subsequent `Spectrice_Destroy` then frees it
again — undefined behavior (`none` in the heap model), not a safe no-op. -/
theorem C7_destroy_after_window_reject_double_frees :
    (Spectrice_Init_mem 1 16 4 false false true 5 ⟨[], 0⟩).2.ok = false
      ∧ Spectrice_Destroy_mem (Spectrice_Init_mem 1 16 4 false false true 5 ⟨[], 0⟩).1
          (Spectrice_Init_mem 1 16 4 false false true 5 ⟨[], 0⟩).2 = none := by
  constructor
  · decide
  · decide

/-- C9 (refuted): `Spectrice_Init` accepts `BlockSize = 8` (its lower bound
is `MIN_BANDS = 8`), but `8` violates the centered-FFT kernels' documented
size contract `N ≥ 16`, and `Spectrice_Process` passes `BlockSize` as `N`
to those kernels. -/
theorem C9_init_accepts_fft_size_violation :
    (Spectrice_Init
        { nChan := 1, BlockSize := 8, nHops := 2, FreezeStart := 0, FreezePoint := 0,
          FreezeFactor := 0, FreezeAmp := false, FreezePhase := false,
          HaveSnapshot := false, BlockIdx := 0, Window := fun _ => 0,
          chans := fun _ =>
            ⟨fun _ => 0, fun _ => 0, fun _ => 0, fun _ => 0, fun _ => 0, fun _ => 0⟩ }
        0 none none true).isSome = true
      ∧ Fourier_size_ok 8 = false := by
  constructor
  · rw [Spectrice_Init_isSome_eq]
    decide
  · decide

/-- C5 (amended): `Spectrice_Init` fails exactly on the checks the code
performs — `nChan`, `BlockSize`, `nHops` out of range, a non-power-of-two
`BlockSize` or `nHops`, a snapshot combined with `FreezePhase`, allocation
failure, or a window type unknown or demanding more hops — and on nothing
else: `FreezeStart`, `FreezePoint` and `FreezeFactor` are never checked. -/
theorem C5_init_failure_iff (S : Spectrice_t) (wt : ℕ) (prim snap : Option (ℕ → ℝ))
    (alloc : Bool) :
    (Spectrice_Init S wt prim snap alloc).isSome = false
      ↔ (S.nChan < 1 ∨ 255 < S.nChan
        ∨ S.BlockSize < 8 ∨ 65536 < S.BlockSize
        ∨ S.nHops < 2 ∨ S.BlockSize < S.nHops
        ∨ (¬∃ k, S.BlockSize = 2 ^ k) ∨ (¬∃ k, S.nHops = 2 ^ k)
        ∨ (snap.isSome = true ∧ S.FreezePhase = true)
        ∨ alloc = false
        ∨ 4 < wt ∨ S.nHops < windowMinHops wt) := by
  rw [Spectrice_Init_isSome_eq]
  unfold Spectrice_Init_ok
  split_ifs with h1 h2 h3 h4 h5 h6 h7
  · exact iff_of_true rfl (by tauto)
  · exact iff_of_true rfl (by tauto)
  · exact iff_of_true rfl (by tauto)
  · refine iff_of_true rfl ?_
    rcases h4 with h | h
    · refine Or.inr (Or.inr (Or.inr (Or.inr (Or.inr (Or.inr (Or.inl ?_))))))
      exact fun hex => h ((SPECTRICE_IS_POWEROF_2_iff _).mpr hex)
    · refine Or.inr (Or.inr (Or.inr (Or.inr (Or.inr (Or.inr (Or.inr (Or.inl ?_)))))))
      exact fun hex => h ((SPECTRICE_IS_POWEROF_2_iff _).mpr hex)
  · refine iff_of_true rfl ?_
    rw [Bool.and_eq_true] at h5
    tauto
  · refine iff_of_true rfl ?_
    rw [Bool.not_eq_true'] at h6
    tauto
  · exact iff_of_true rfl (by tauto)
  · refine iff_of_false (by simp) ?_
    intro hor
    have hp2 : SPECTRICE_IS_POWEROF_2 S.BlockSize = true
        ∧ SPECTRICE_IS_POWEROF_2 S.nHops = true := by
      constructor
      · by_contra hb
        exact h4 (Or.inl hb)
      · by_contra hb
        exact h4 (Or.inr hb)
    rcases hor with h | h | h | h | h | h | h | h | h | h | h | h
    · exact h1 (Or.inl h)
    · exact h1 (Or.inr h)
    · exact h2 (Or.inl h)
    · exact h2 (Or.inr h)
    · exact h3 (Or.inl h)
    · exact h3 (Or.inr h)
    · exact h ((SPECTRICE_IS_POWEROF_2_iff _).mp hp2.1)
    · exact h ((SPECTRICE_IS_POWEROF_2_iff _).mp hp2.2)
    · exact h5 (Bool.and_eq_true _ _ |>.mpr ⟨h.1, h.2⟩)
    · rw [h] at h6
      exact h6 rfl
    · exact h7 (Or.inl h)
    · exact h7 (Or.inr h)

/-- Counterexample to C5 as stated: a configuration with
`FreezeFactor = 2 ∉ [0,1]` (a §3 range violation the spec lists as a failure
mode) is accepted by `Spectrice_Init` — the freeze parameters are never
validated. -/
theorem C5_counterexample :
    (Spectrice_Init
        { nChan := 1, BlockSize := 16, nHops := 2, FreezeStart := 0, FreezePoint := 0,
          FreezeFactor := 2, FreezeAmp := false, FreezePhase := false,
          HaveSnapshot := false, BlockIdx := 0, Window := fun _ => 0,
          chans := fun _ =>
            ⟨fun _ => 0, fun _ => 0, fun _ => 0, fun _ => 0, fun _ => 0, fun _ => 0⟩ }
        0 none none true).isSome = true
      ∧ ¬((0 : ℝ) ≤ 2 ∧ (2 : ℝ) ≤ 1) := by
  constructor
  · rw [Spectrice_Init_isSome_eq]
    decide
  · norm_num

/-- With a snapshot (`HaveSnapshot = true`), a single hop never writes
`BfAbs` (the write is guarded by `!State->HaveSnapshot`). -/
theorem hopStep_BfAbs_keep (S : Spectrice_t) (Hop : ℕ) (inChan : ℕ → ℝ)
    (ch : SpectriceChan) (hS : S.HaveSnapshot = true) :
    (hopStep S Hop inChan ch).BfAbs = ch.BfAbs := by
  funext n
  show (if n < S.BlockSize / 2 ∧ S.FreezeAmp = true ∧ S.HaveSnapshot = false
    then _ else ch.BfAbs n) = ch.BfAbs n
  rw [if_neg]
  rintro ⟨-, -, hfalse⟩
  rw [hS] at hfalse
  exact Bool.true_eq_false.mp hfalse

/-- With a snapshot, no hop of a block writes `BfAbs`. -/
theorem blockHops_BfAbs_keep (S : Spectrice_t) (inChan : ℕ → ℝ) (ch : SpectriceChan)
    (hS : S.HaveSnapshot = true) :
    ∀ h, (blockHops S inChan ch h).BfAbs = ch.BfAbs := by
  intro h
  induction h with
  | zero => rfl
  | succ h ih =>
    show (hopStep S h inChan (blockHops S inChan ch h)).BfAbs = ch.BfAbs
    rw [hopStep_BfAbs_keep S h inChan _ hS, ih]

/-- With a snapshot, iterated `Spectrice_Process` calls never touch any
channel's `BfAbs`. -/
theorem stateAfter_BfAbs_keep (S₀ : Spectrice_t) (InSeq : ℕ → ℕ → ℝ) (c : ℕ)
    (hS : S₀.HaveSnapshot = true) :
    ∀ b, ((stateAfter S₀ InSeq b).chans c).BfAbs = ((S₀.chans c)).BfAbs := by
  intro b
  induction b with
  | zero => rfl
  | succ b ih =>
    have hSb : (stateAfter S₀ InSeq b).HaveSnapshot = true := by
      rw [stateAfter_HaveSnapshot]
      exact hS
    show ((Spectrice_Process (stateAfter S₀ InSeq b) (InSeq b)).1.chans c).BfAbs = _
    simp only [Spectrice_Process]
    split_ifs with hc
    · rw [show processChan (stateAfter S₀ InSeq b)
          (chanInput (stateAfter S₀ InSeq b).nChan c (InSeq b))
          ((stateAfter S₀ InSeq b).chans c)
        = blockHops (stateAfter S₀ InSeq b)
            (chanInput (stateAfter S₀ InSeq b).nChan c (InSeq b))
            ((stateAfter S₀ InSeq b).chans c) (stateAfter S₀ InSeq b).nHops from rfl]
      rw [blockHops_BfAbs_keep _ _ _ hSb, ih]
    · exact ih

/-- C4: if a snapshot was provided (`HaveSnapshot = true`), the
target-magnitude buffer `BfAbs` of every channel is immutable under any
number of `Spectrice_Process` calls; without a snapshot and with `FreezeAmp`
on, every hop writes the mixed magnitude
`MixRatio·BfAbs[n] + (1−MixRatio)·Abs` back into `BfAbs[n]` as the running
target. -/
theorem C4_bfabs_immutable_or_running (S : Spectrice_t) :
    (S.HaveSnapshot = true →
      ∀ (InSeq : ℕ → ℕ → ℝ) (b c n : ℕ),
        ((stateAfter S InSeq b).chans c).BfAbs n = (S.chans c).BfAbs n)
    ∧ (S.HaveSnapshot = false → S.FreezeAmp = true →
      ∀ (Hop : ℕ) (inChan : ℕ → ℝ) (ch : SpectriceChan) (n : ℕ),
        n < S.BlockSize / 2 →
          (hopStep S Hop inChan ch).BfAbs n
            = mixRatio S Hop * ch.BfAbs n
              + (1 - mixRatio S Hop) * binAbs (hopFFT S ch) n) := by
  constructor
  · intro hS InSeq b c n
    rw [stateAfter_BfAbs_keep S InSeq c hS b]
  · intro hS hAmp Hop inChan ch n hn
    show (if n < S.BlockSize / 2 ∧ S.FreezeAmp = true ∧ S.HaveSnapshot = false
      then hopAbs S (mixRatio S Hop) ch (hopFFT S ch) n else ch.BfAbs n) = _
    rw [if_pos ⟨hn, hAmp, hS⟩]
    unfold hopAbs
    rw [if_pos hAmp]

/-- Witness for C4: both branches at concrete states — a snapshot state with
a constant `BfAbs`, one call, and a no-snapshot `FreezeAmp` state with a
single hop at bin 0. -/
theorem C4_bfabs_immutable_or_running_witness :
    (((stateAfter
          { nChan := 1, BlockSize := 16, nHops := 2, FreezeStart := 0, FreezePoint := 0,
            FreezeFactor := 0, FreezeAmp := true, FreezePhase := false,
            HaveSnapshot := true, BlockIdx := 0, Window := fun _ => 0,
            chans := fun _ =>
              ⟨fun _ => 0, fun _ => 0, fun _ => 5, fun _ => 0, fun _ => 0, fun _ => 0⟩ }
          (fun _ _ => 1) 3).chans 0).BfAbs 0
        = (((
          { nChan := 1, BlockSize := 16, nHops := 2, FreezeStart := 0, FreezePoint := 0,
            FreezeFactor := 0, FreezeAmp := true, FreezePhase := false,
            HaveSnapshot := true, BlockIdx := 0, Window := fun _ => 0,
            chans := fun _ =>
              ⟨fun _ => 0, fun _ => 0, fun _ => 5, fun _ => 0, fun _ => 0, fun _ => 0⟩ }
            : Spectrice_t).chans 0)).BfAbs 0)
    ∧ ((hopStep
          { nChan := 1, BlockSize := 16, nHops := 2, FreezeStart := 0, FreezePoint := 0,
            FreezeFactor := 0, FreezeAmp := true, FreezePhase := false,
            HaveSnapshot := false, BlockIdx := 0, Window := fun _ => 0,
            chans := fun _ =>
              ⟨fun _ => 0, fun _ => 0, fun _ => 0, fun _ => 0, fun _ => 0, fun _ => 0⟩ }
          0 (fun _ => 0)
          ⟨fun _ => 0, fun _ => 0, fun _ => 7, fun _ => 0, fun _ => 0, fun _ => 0⟩).BfAbs 0
        = mixRatio
            { nChan := 1, BlockSize := 16, nHops := 2, FreezeStart := 0, FreezePoint := 0,
              FreezeFactor := 0, FreezeAmp := true, FreezePhase := false,
              HaveSnapshot := false, BlockIdx := 0, Window := fun _ => 0,
              chans := fun _ =>
                ⟨fun _ => 0, fun _ => 0, fun _ => 0, fun _ => 0, fun _ => 0, fun _ => 0⟩ }
            0 * (7 : ℝ)
          + (1 - mixRatio
              { nChan := 1, BlockSize := 16, nHops := 2, FreezeStart := 0,
                FreezePoint := 0, FreezeFactor := 0, FreezeAmp := true,
                FreezePhase := false, HaveSnapshot := false, BlockIdx := 0,
                Window := fun _ => 0,
                chans := fun _ =>
                  ⟨fun _ => 0, fun _ => 0, fun _ => 0, fun _ => 0, fun _ => 0,
                    fun _ => 0⟩ } 0)
            * binAbs (hopFFT
                { nChan := 1, BlockSize := 16, nHops := 2, FreezeStart := 0,
                  FreezePoint := 0, FreezeFactor := 0, FreezeAmp := true,
                  FreezePhase := false, HaveSnapshot := false, BlockIdx := 0,
                  Window := fun _ => 0,
                  chans := fun _ =>
                    ⟨fun _ => 0, fun _ => 0, fun _ => 0, fun _ => 0, fun _ => 0,
                      fun _ => 0⟩ }
                ⟨fun _ => 0, fun _ => 0, fun _ => 7, fun _ => 0, fun _ => 0,
                  fun _ => 0⟩) 0) :=
  ⟨(C4_bfabs_immutable_or_running _).1 rfl (fun _ _ => 1) 3 0 0,
   (C4_bfabs_immutable_or_running _).2 rfl rfl 0 (fun _ => 0) _ 0 (by norm_num)⟩

/-- The inverse centered FFT of the zero vector is zero. -/
theorem Fourier_iFFTReCenter_zero (M : ℕ) (x : ℕ → ℝ) (h : ∀ n < 2 * M, x n = 0)
    (i : ℕ) : Fourier_iFFTReCenter M x i = 0 := by
  unfold Fourier_iFFTReCenter
  split
  · split
    · rw [Fourier_DCT4_zero M _ (fun j hj => h (2 * j) (by omega)) (i - M),
        Fourier_DCT4_zero M _ (fun j hj => h (2 * (M - 1 - j) + 1) (by omega)) (i - M)]
      ring
    · rw [Fourier_DCT4_zero M _ (fun j hj => h (2 * j) (by omega)) (M - 1 - i),
        Fourier_DCT4_zero M _ (fun j hj => h (2 * (M - 1 - j) + 1) (by omega)) (M - 1 - i)]
      ring
  · rfl

/-- The remaining configuration fields also survive iterated calls. -/
theorem stateAfter_FreezeStart (S₀ : Spectrice_t) (InSeq : ℕ → ℕ → ℝ) (b : ℕ) :
    (stateAfter S₀ InSeq b).FreezeStart = S₀.FreezeStart := by
  induction b with
  | zero => rfl
  | succ b ih => exact ih

/-- The freeze end point survives iterated calls. -/
theorem stateAfter_FreezePoint (S₀ : Spectrice_t) (InSeq : ℕ → ℕ → ℝ) (b : ℕ) :
    (stateAfter S₀ InSeq b).FreezePoint = S₀.FreezePoint := by
  induction b with
  | zero => rfl
  | succ b ih => exact ih

/-- The amplitude-freeze flag survives iterated calls. -/
theorem stateAfter_FreezeAmp (S₀ : Spectrice_t) (InSeq : ℕ → ℕ → ℝ) (b : ℕ) :
    (stateAfter S₀ InSeq b).FreezeAmp = S₀.FreezeAmp := by
  induction b with
  | zero => rfl
  | succ b ih => exact ih

/-- The phase-freeze flag survives iterated calls. -/
theorem stateAfter_FreezePhase (S₀ : Spectrice_t) (InSeq : ℕ → ℕ → ℝ) (b : ℕ) :
    (stateAfter S₀ InSeq b).FreezePhase = S₀.FreezePhase := by
  induction b with
  | zero => rfl
  | succ b ih => exact ih

/-- Each call increments `BlockIdx` by one. -/
theorem stateAfter_BlockIdx (S₀ : Spectrice_t) (InSeq : ℕ → ℕ → ℝ) (b : ℕ) :
    (stateAfter S₀ InSeq b).BlockIdx = S₀.BlockIdx + b := by
  induction b with
  | zero => rfl
  | succ b ih =>
    show (stateAfter S₀ InSeq b).BlockIdx + 1 = S₀.BlockIdx + (b + 1)
    omega

/-- Two states with equal fields are equal. -/
theorem Spectrice_t_ext (S T : Spectrice_t)
    (h1 : S.nChan = T.nChan) (h2 : S.BlockSize = T.BlockSize) (h3 : S.nHops = T.nHops)
    (h4 : S.FreezeStart = T.FreezeStart) (h5 : S.FreezePoint = T.FreezePoint)
    (h6 : S.FreezeFactor = T.FreezeFactor) (h7 : S.FreezeAmp = T.FreezeAmp)
    (h8 : S.FreezePhase = T.FreezePhase) (h9 : S.HaveSnapshot = T.HaveSnapshot)
    (h10 : S.BlockIdx = T.BlockIdx) (h11 : S.Window = T.Window)
    (h12 : S.chans = T.chans) : S = T := by
  cases S
  cases T
  subst h1 h2 h3 h4 h5 h6 h7 h8 h9 h10 h11 h12
  rfl

/-- The state after `b` calls is the initial state with `BlockIdx` advanced
and the channels replaced. -/
theorem stateAfter_eq_update (S₀ : Spectrice_t) (InSeq : ℕ → ℕ → ℝ) (b : ℕ) :
    stateAfter S₀ InSeq b
      = { S₀ with BlockIdx := S₀.BlockIdx + b, chans := (stateAfter S₀ InSeq b).chans } := by
  apply Spectrice_t_ext
  · exact stateAfter_nChan S₀ InSeq b
  · exact stateAfter_BlockSize S₀ InSeq b
  · exact stateAfter_nHops S₀ InSeq b
  · exact stateAfter_FreezeStart S₀ InSeq b
  · exact stateAfter_FreezePoint S₀ InSeq b
  · exact stateAfter_FreezeFactor S₀ InSeq b
  · exact stateAfter_FreezeAmp S₀ InSeq b
  · exact stateAfter_FreezePhase S₀ InSeq b
  · exact stateAfter_HaveSnapshot S₀ InSeq b
  · exact stateAfter_BlockIdx S₀ InSeq b
  · exact stateAfter_Window S₀ InSeq b
  · rfl

/-- `hopStep` never reads the state's `chans` field. -/
theorem hopStep_chans_irrel (S : Spectrice_t) (A B : ℕ → SpectriceChan) (Hop : ℕ)
    (inChan : ℕ → ℝ) (ch : SpectriceChan) :
    hopStep { S with chans := A } Hop inChan ch
      = hopStep { S with chans := B } Hop inChan ch := rfl

/-- `blockHops` never reads the state's `chans` field. -/
theorem blockHops_chans_irrel (S : Spectrice_t) (A B : ℕ → SpectriceChan)
    (inChan : ℕ → ℝ) (ch : SpectriceChan) :
    ∀ h, blockHops { S with chans := A } inChan ch h
      = blockHops { S with chans := B } inChan ch h := by
  intro h
  induction h with
  | zero => rfl
  | succ h ih =>
    show hopStep { S with chans := A } h inChan (blockHops { S with chans := A } inChan ch h)
      = hopStep { S with chans := B } h inChan (blockHops { S with chans := B } inChan ch h)
    rw [ih]
    exact hopStep_chans_irrel S A B h inChan _

/-- `processChan` never reads the state's `chans` field. -/
theorem processChan_chans_irrel (S : Spectrice_t) (A B : ℕ → SpectriceChan)
    (inChan : ℕ → ℝ) (ch : SpectriceChan) :
    processChan { S with chans := A } inChan ch
      = processChan { S with chans := B } inChan ch :=
  blockHops_chans_irrel S A B inChan ch S.nHops

/-- `chanBlockOut` never reads the state's `chans` field. -/
theorem chanBlockOut_chans_irrel (S : Spectrice_t) (A B : ℕ → SpectriceChan)
    (inChan : ℕ → ℝ) (ch : SpectriceChan) (j : ℕ) :
    chanBlockOut { S with chans := A } inChan ch j
      = chanBlockOut { S with chans := B } inChan ch j := by
  unfold chanBlockOut hopEmit
  rw [blockHops_chans_irrel S A B inChan ch (j / (S.BlockSize / S.nHops))]
  rfl

/-- A zero forward lap analyzes to the zero spectrum, so every bin magnitude
is zero. -/
theorem binAbs_zero_chan (S : Spectrice_t) (ch : SpectriceChan)
    (hfwd : ∀ i, ch.BfFwdLap i = 0) : ∀ n, binAbs (hopFFT S ch) n = 0 := by
  have hwl : ∀ i, windowedLap S.Window S.BlockSize ch.BfFwdLap i = 0 := by
    intro i
    unfold windowedLap
    split
    · rw [hfwd]
      ring
    · rfl
  have hfft : ∀ i, hopFFT S ch i = 0 := by
    intro i
    unfold hopFFT
    exact Fourier_FFTReCenter_zero _ _ (fun n _ => hwl n) i
  intro n
  unfold binAbs binRe binIm
  rw [hfft, hfft]
  simp

/-- With a zero magnitude target and a zero forward lap, the mixed magnitude
is zero for every mix ratio. -/
theorem hopAbs_zero_chan (S : Spectrice_t) (mix : ℝ) (ch : SpectriceChan)
    (hfwd : ∀ i, ch.BfFwdLap i = 0) (habs : ∀ n, ch.BfAbs n = 0) :
    ∀ n, hopAbs S mix ch (hopFFT S ch) n = 0 := by
  intro n
  unfold hopAbs
  split
  · rw [habs, binAbs_zero_chan S ch hfwd]
    ring
  · exact binAbs_zero_chan S ch hfwd n

/-- On a zero channel every hop accumulates nothing: the inverse lap stays
zero whatever the mix ratio and the phase buffers hold. -/
theorem hopInvLapAcc_zero_chan (S : Spectrice_t) (mix : ℝ) (ch : SpectriceChan)
    (hfwd : ∀ i, ch.BfFwdLap i = 0) (hinv : ∀ i, ch.BfInvLap i = 0)
    (habs : ∀ n, ch.BfAbs n = 0) : ∀ i, hopInvLapAcc S mix ch i = 0 := by
  have hwl : ∀ i, windowedLap S.Window S.BlockSize ch.BfFwdLap i = 0 := by
    intro i
    unfold windowedLap
    split
    · rw [hfwd]
      ring
    · rfl
  have hfft : ∀ i, hopFFT S ch i = 0 := by
    intro i
    unfold hopFFT
    exact Fourier_FFTReCenter_zero _ _ (fun n _ => hwl n) i
  have hRe : ∀ n, hopOutRe S mix ch (hopFFT S ch) n = 0 := by
    intro n
    unfold hopOutRe
    rw [hopAbs_zero_chan S mix ch hfwd habs]
    ring
  have hIm : ∀ n, hopOutIm S mix ch (hopFFT S ch) n = 0 := by
    intro n
    unfold hopOutIm
    rw [hopAbs_zero_chan S mix ch hfwd habs]
    ring
  have hspec : ∀ i, hopSpectrum S mix ch (hopFFT S ch) i = 0 := by
    intro i
    unfold hopSpectrum
    split_ifs
    · exact hRe _
    · exact hIm _
    · exact hfft i
  have hifft : ∀ i, hopIFFT S mix ch i = 0 := by
    intro i
    unfold hopIFFT
    exact Fourier_iFFTReCenter_zero _ _ (fun n _ => hspec n) i
  intro i
  unfold hopInvLapAcc
  split
  · rw [hinv, hifft]
    ring
  · exact hinv i

/-- A hop fed zero input on a zero channel keeps the channel zero (laps and
magnitude target). -/
theorem hopStep_zero_chan (S : Spectrice_t) (Hop : ℕ) (inChan : ℕ → ℝ)
    (ch : SpectriceChan) (hin : ∀ t, inChan t = 0)
    (hfwd : ∀ i, ch.BfFwdLap i = 0) (hinv : ∀ i, ch.BfInvLap i = 0)
    (habs : ∀ n, ch.BfAbs n = 0) :
    (∀ i, (hopStep S Hop inChan ch).BfFwdLap i = 0)
    ∧ (∀ i, (hopStep S Hop inChan ch).BfInvLap i = 0)
    ∧ (∀ n, (hopStep S Hop inChan ch).BfAbs n = 0) := by
  refine ⟨?_, ?_, ?_⟩
  · intro i
    simp only [hopStep]
    split_ifs
    · exact hfwd _
    · exact hin _
    · exact hfwd i
  · intro i
    simp only [hopStep]
    split_ifs
    · exact hopInvLapAcc_zero_chan S _ ch hfwd hinv habs _
    · rfl
    · exact hinv i
  · intro n
    simp only [hopStep]
    split_ifs
    · exact hopAbs_zero_chan S _ ch hfwd habs n
    · exact habs n

/-- All hops of a block keep a zero channel zero. -/
theorem blockHops_zero_chan (S : Spectrice_t) (inChan : ℕ → ℝ) (ch : SpectriceChan)
    (hin : ∀ t, inChan t = 0) (hfwd : ∀ i, ch.BfFwdLap i = 0)
    (hinv : ∀ i, ch.BfInvLap i = 0) (habs : ∀ n, ch.BfAbs n = 0) :
    ∀ h, (∀ i, (blockHops S inChan ch h).BfFwdLap i = 0)
      ∧ (∀ i, (blockHops S inChan ch h).BfInvLap i = 0)
      ∧ (∀ n, (blockHops S inChan ch h).BfAbs n = 0) := by
  intro h
  induction h with
  | zero => exact ⟨hfwd, hinv, habs⟩
  | succ h ih =>
    obtain ⟨ihf, ihi, iha⟩ := ih
    exact hopStep_zero_chan S h inChan _ hin ihf ihi iha

/-- Iterated calls with zero input on channel `c` keep channel `c`'s state
zero. -/
theorem stateAfter_zero_chan (S : Spectrice_t) (In : ℕ → ℕ → ℝ) (c : ℕ)
    (hc : c < S.nChan) (hin : ∀ b t, In b (t * S.nChan + c) = 0)
    (hfwd : ∀ i, (S.chans c).BfFwdLap i = 0) (hinv : ∀ i, (S.chans c).BfInvLap i = 0)
    (habs : ∀ n, (S.chans c).BfAbs n = 0) :
    ∀ b, (∀ i, ((stateAfter S In b).chans c).BfFwdLap i = 0)
      ∧ (∀ i, ((stateAfter S In b).chans c).BfInvLap i = 0)
      ∧ (∀ n, ((stateAfter S In b).chans c).BfAbs n = 0) := by
  intro b
  induction b with
  | zero => exact ⟨hfwd, hinv, habs⟩
  | succ b ih =>
    obtain ⟨ihf, ihi, iha⟩ := ih
    have hnc := stateAfter_nChan S In b
    have hchans : (stateAfter S In (b + 1)).chans c
        = processChan (stateAfter S In b)
            (chanInput (stateAfter S In b).nChan c (In b))
            ((stateAfter S In b).chans c) := by
      show (Spectrice_Process (stateAfter S In b) (In b)).1.chans c = _
      simp only [Spectrice_Process]
      rw [if_pos (by rw [hnc]; exact hc)]
    have hinC : ∀ t, chanInput (stateAfter S In b).nChan c (In b) t = 0 := by
      intro t
      unfold chanInput
      rw [hnc]
      exact hin b t
    rw [hchans]
    exact blockHops_zero_chan (stateAfter S In b) _ _ hinC ihf ihi iha
      (stateAfter S In b).nHops

/-- Channel `c`'s state evolution only depends on channel `c`'s input
samples. -/
theorem stateAfter_chans_congr (S : Spectrice_t) (In In' : ℕ → ℕ → ℝ) (c : ℕ)
    (hc : c < S.nChan)
    (hagree : ∀ b t, In b (t * S.nChan + c) = In' b (t * S.nChan + c)) :
    ∀ b, (stateAfter S In b).chans c = (stateAfter S In' b).chans c := by
  intro b
  induction b with
  | zero => rfl
  | succ b ih =>
    have hnc := stateAfter_nChan S In b
    have hnc' := stateAfter_nChan S In' b
    have hinC : chanInput (stateAfter S In b).nChan c (In b)
        = chanInput (stateAfter S In' b).nChan c (In' b) := by
      funext t
      unfold chanInput
      rw [hnc, hnc']
      exact hagree b t
    show (Spectrice_Process (stateAfter S In b) (In b)).1.chans c
      = (Spectrice_Process (stateAfter S In' b) (In' b)).1.chans c
    simp only [Spectrice_Process]
    rw [if_pos (by rw [hnc]; exact hc), if_pos (by rw [hnc']; exact hc)]
    rw [hinC, ih]
    rw [stateAfter_eq_update S In b, stateAfter_eq_update S In' b]
    exact processChan_chans_irrel { S with BlockIdx := S.BlockIdx + b }
      ((stateAfter S In b).chans) ((stateAfter S In' b).chans) _ _

/-- Channel `c`'s output samples only depend on channel `c`'s input
samples. -/
theorem processOut_chans_congr (S : Spectrice_t) (In In' : ℕ → ℕ → ℝ) (c : ℕ)
    (hc : c < S.nChan)
    (hagree : ∀ b t, In b (t * S.nChan + c) = In' b (t * S.nChan + c)) (b j : ℕ) :
    (Spectrice_Process (stateAfter S In b) (In b)).2 (j * S.nChan + c)
      = (Spectrice_Process (stateAfter S In' b) (In' b)).2 (j * S.nChan + c) := by
  have hnc := stateAfter_nChan S In b
  have hnc' := stateAfter_nChan S In' b
  have hbs := stateAfter_BlockSize S In b
  have hbs' := stateAfter_BlockSize S In' b
  have hn0 : 0 < S.nChan := by omega
  have hmod : (j * S.nChan + c) % S.nChan = c := by
    rw [Nat.add_comm, Nat.add_mul_mod_self_right, Nat.mod_eq_of_lt hc]
  have hdiv : (j * S.nChan + c) / S.nChan = j := by
    rw [Nat.add_comm, Nat.add_mul_div_right _ _ hn0, Nat.div_eq_of_lt hc, Nat.zero_add]
  simp only [Spectrice_Process]
  rw [hnc, hnc', hbs, hbs', hmod, hdiv]
  split_ifs with hj
  · rw [show chanInput S.nChan c (In b) = chanInput S.nChan c (In' b) from
      funext fun t => hagree b t]
    rw [stateAfter_chans_congr S In In' c hc hagree b]
    rw [stateAfter_eq_update S In b, stateAfter_eq_update S In' b]
    exact chanBlockOut_chans_irrel { S with BlockIdx := S.BlockIdx + b }
      ((stateAfter S In b).chans) ((stateAfter S In' b).chans) _ _ j
  · rfl

/-- C8: channels are processed independently — channel `c`'s state and output
after any number of `Spectrice_Process` calls depend only on channel `c`'s
input samples; and a channel whose state and input are all zero outputs
exactly zero forever, whatever the other channels carry. -/
theorem C8_channel_independence (S : Spectrice_t) (c : ℕ) (hc : c < S.nChan) :
    (∀ In In' : ℕ → ℕ → ℝ,
      (∀ b t, In b (t * S.nChan + c) = In' b (t * S.nChan + c)) →
      ∀ b j, (stateAfter S In b).chans c = (stateAfter S In' b).chans c
        ∧ (Spectrice_Process (stateAfter S In b) (In b)).2 (j * S.nChan + c)
            = (Spectrice_Process (stateAfter S In' b) (In' b)).2 (j * S.nChan + c))
    ∧ (∀ In : ℕ → ℕ → ℝ, (∀ b t, In b (t * S.nChan + c) = 0) →
      (∀ i, (S.chans c).BfFwdLap i = 0) → (∀ i, (S.chans c).BfInvLap i = 0) →
      (∀ n, (S.chans c).BfAbs n = 0) →
      ∀ b j, (Spectrice_Process (stateAfter S In b) (In b)).2 (j * S.nChan + c) = 0) := by
  constructor
  · intro In In' hagree b j
    exact ⟨stateAfter_chans_congr S In In' c hc hagree b,
      processOut_chans_congr S In In' c hc hagree b j⟩
  · intro In hin hfwd hinv habs b j
    obtain ⟨ihf, ihi, iha⟩ := stateAfter_zero_chan S In c hc hin hfwd hinv habs b
    have hnc := stateAfter_nChan S In b
    have hn0 : 0 < S.nChan := by omega
    have hmod : (j * S.nChan + c) % S.nChan = c := by
      rw [Nat.add_comm, Nat.add_mul_mod_self_right, Nat.mod_eq_of_lt hc]
    have hdiv : (j * S.nChan + c) / S.nChan = j := by
      rw [Nat.add_comm, Nat.add_mul_div_right _ _ hn0, Nat.div_eq_of_lt hc, Nat.zero_add]
    simp only [Spectrice_Process]
    rw [hnc, hmod, hdiv]
    split_ifs with hj
    · have hinC : ∀ t, chanInput S.nChan c (In b) t = 0 := fun t => hin b t
      obtain ⟨hf, hi2, ha⟩ := blockHops_zero_chan (stateAfter S In b) _ _ hinC ihf ihi iha
        (j / ((stateAfter S In b).BlockSize / (stateAfter S In b).nHops))
      unfold chanBlockOut hopEmit
      exact hopInvLapAcc_zero_chan _ _ _ hf hi2 ha _
    · rfl

/-- Witness for C8: a stereo configuration, channel 0, two input sequences
agreeing on channel 0, one call, frame 0; and the zero channel at the
all-zero starting state. -/
theorem C8_channel_independence_witness :
    ((stateAfter
          { nChan := 2, BlockSize := 16, nHops := 2, FreezeStart := 0, FreezePoint := 0,
            FreezeFactor := 0, FreezeAmp := false, FreezePhase := false,
            HaveSnapshot := false, BlockIdx := 0, Window := fun _ => 0,
            chans := fun _ =>
              ⟨fun _ => 0, fun _ => 0, fun _ => 0, fun _ => 0, fun _ => 0, fun _ => 0⟩ }
          (fun _ t => (t : ℝ)) 1).chans 0
        = (stateAfter
          { nChan := 2, BlockSize := 16, nHops := 2, FreezeStart := 0, FreezePoint := 0,
            FreezeFactor := 0, FreezeAmp := false, FreezePhase := false,
            HaveSnapshot := false, BlockIdx := 0, Window := fun _ => 0,
            chans := fun _ =>
              ⟨fun _ => 0, fun _ => 0, fun _ => 0, fun _ => 0, fun _ => 0, fun _ => 0⟩ }
          (fun _ t => if t % 2 = 0 then (t : ℝ) else 5) 1).chans 0)
    ∧ ((Spectrice_Process
          (stateAfter
            { nChan := 2, BlockSize := 16, nHops := 2, FreezeStart := 0, FreezePoint := 0,
              FreezeFactor := 0, FreezeAmp := false, FreezePhase := false,
              HaveSnapshot := false, BlockIdx := 0, Window := fun _ => 0,
              chans := fun _ =>
                ⟨fun _ => 0, fun _ => 0, fun _ => 0, fun _ => 0, fun _ => 0, fun _ => 0⟩ }
            (fun _ _ => (0 : ℝ)) 2)
          ((fun _ _ => (0 : ℝ)) 2)).2 (3 * 2 + 0) = 0) := by
  constructor
  · exact ((C8_channel_independence _ 0 (by norm_num)).1
      (fun _ t => (t : ℝ)) (fun _ t => if t % 2 = 0 then (t : ℝ) else 5)
      (by
        intro b t
        show ((t * 2 + 0 : ℕ) : ℝ)
          = if (t * 2 + 0) % 2 = 0 then ((t * 2 + 0 : ℕ) : ℝ) else 5
        rw [if_pos (show (t * 2 + 0) % 2 = 0 by omega)]) 1 0).1
  · exact (C8_channel_independence _ 0 (by norm_num)).2 (fun _ _ => (0 : ℝ))
      (fun _ _ => rfl) (fun _ => rfl) (fun _ => rfl) (fun _ => rfl) 2 3

end Spectrice
